import Mathlib

/-!
Shallow embedding of the `toy_trader` portfolio-simulation core
(`allocation.py`, `execution.py`, `multi_execution.py`, `core_types.py`)
over exact rational arithmetic.  Python dicts become association lists
(insertion-ordered, like Python dicts), float NaN / garbage signal values
become an explicit inductive type, and `raise` becomes `Except.error`.
-/

namespace ToyTrader

/-! ## Association-list primitives (Python `dict` operations) -/

/-- `l[k]` as an option: first entry whose key equals `k` (Python dict lookup;
keys are unique in an actual Python dict). -/
def aget {α β : Type} [DecidableEq α] : List (α × β) → α → Option β
  | [], _ => none
  | (k', v) :: t, k => if k' = k then some v else aget t k

/-- `l.get(k, d)` with a default. -/
def agetD {α β : Type} [DecidableEq α] (l : List (α × β)) (k : α) (d : β) : β :=
  (aget l k).getD d

/-- `l[k] = v`: replace the value in place if the key exists, else append
(Python dicts keep insertion order and append new keys at the end). -/
def aset {α β : Type} [DecidableEq α] : List (α × β) → α → β → List (α × β)
  | [], k, v => [(k, v)]
  | (k', v') :: t, k, v => if k' = k then (k, v) :: t else (k', v') :: aset t k v

/-- `l.pop(k, None)`: drop the entry with key `k`. -/
def adel {α β : Type} [DecidableEq α] : List (α × β) → α → List (α × β)
  | [], _ => []
  | (k', v') :: t, k => if k' = k then t else (k', v') :: adel t k

/-- Sum of the values of an association list (`sum(w.values())`). -/
def wsum {α : Type} (l : List (α × ℚ)) : ℚ := (l.map Prod.snd).sum

/-- Python's `min` on two floats, as an executable rational function. -/
def qmin (a b : ℚ) : ℚ := if a ≤ b then a else b

/-- Python's `abs` on a float, as an executable rational function. -/
def qabs (a : ℚ) : ℚ := if a < 0 then -a else a

theorem qmin_eq_min (a b : ℚ) : qmin a b = min a b := by
  simp [qmin, min_def]

theorem qabs_eq_abs (a : ℚ) : qabs a = |a| := by
  rcases lt_or_le a 0 with h | h
  · simp [qabs, h, abs_of_neg h]
  · simp [qabs, not_lt.mpr h, abs_of_nonneg h]

/-! ## Allocation layer (`allocation.py`) -/

/-- A raw per-instrument signal value as it arrives from a strategy:
a genuine float (`num`), a float NaN (`nan`), or a non-float value on which
`float(v)` raises (`garbage`). -/
inductive RawVal : Type
  | num (q : ℚ)
  | nan
  | garbage
deriving DecidableEq

/-- One entry of `_clean_long_only`: `float(v)` with exceptions caught → 0,
NaN → 0, negatives clamped to 0. -/
def sanitizeRaw : RawVal → ℚ
  | .num q => if q < 0 then 0 else q
  | .nan => 0
  | .garbage => 0

/-- `_clean_long_only(raw)`. -/
def clean_long_only (raw : List (String × RawVal)) : List (String × ℚ) :=
  raw.map (fun p => (p.1, sanitizeRaw p.2))

/-- One pass of the `for _ in range(10_000)` water-filling loop of
`_cap_and_redistribute`, with the loop's `break` conditions folded into the
recursion on the remaining fuel. -/
def capIter (cap budget eps : ℚ) : ℕ → List (String × ℚ) → List (String × ℚ)
  | 0, w => w
  | fuel + 1, w =>
    let s := wsum w
    if budget - eps ≤ s then w
    else
      let leftover := budget - s
      let elig := w.filter (fun p => p.2 < cap - eps)
      if elig.length = 0 then w
      else
        let base := wsum elig
        let upd : ℚ → ℚ :=
          if base ≤ eps then fun v => qmin cap (v + leftover / elig.length)
          else fun v => qmin cap (v + leftover * (v / base))
        let w' := w.map (fun p => if p.2 < cap - eps then (p.1, upd p.2) else p)
        let changed := w.any
          (fun p => decide (p.2 < cap - eps) && decide (eps < qabs (upd p.2 - p.2)))
        if changed then capIter cap budget eps fuel w' else w'

/-- `_cap_and_redistribute(weights, cap, budget, eps)`. -/
def cap_and_redistribute (weights : List (String × ℚ)) (cap budget eps : ℚ) :
    List (String × ℚ) :=
  if cap ≤ 0 then weights.map (fun p => (p.1, 0))
  else
    let w := weights.map (fun p => (p.1, qmin p.2 cap))
    let w2 := capIter cap budget eps 10000 w
    let s := wsum w2
    if budget + eps < s then w2.map (fun p => (p.1, p.2 * (budget / s))) else w2

/-- `ProportionalAllocator(cap, eps)`. -/
structure ProportionalAllocator : Type where
  cap : Option ℚ := none
  eps : ℚ := 1 / 10 ^ 12

/-- `ProportionalAllocator.allocate(raw, budget)`. -/
def ProportionalAllocator.allocate (A : ProportionalAllocator)
    (raw : List (String × RawVal)) (budget : ℚ) : List (String × ℚ) :=
  if budget ≤ 0 then raw.map (fun p => (p.1, 0))
  else
    let clean := clean_long_only raw
    let s := wsum clean
    if s ≤ A.eps then clean.map (fun p => (p.1, 0))
    else
      let w := clean.map (fun p => (p.1, p.2 / s * budget))
      match A.cap with
      | some c => cap_and_redistribute w c budget A.eps
      | none =>
        let sw := wsum w
        if budget + A.eps < sw then w.map (fun p => (p.1, p.2 * (budget / sw)))
        else w

/-- `EqualWeightAllocator(cap, eps)`. -/
structure EqualWeightAllocator : Type where
  cap : Option ℚ := none
  eps : ℚ := 1 / 10 ^ 12

/-- `EqualWeightAllocator.allocate(raw, budget)`. -/
def EqualWeightAllocator.allocate (A : EqualWeightAllocator)
    (raw : List (String × RawVal)) (budget : ℚ) : List (String × ℚ) :=
  if budget ≤ 0 then raw.map (fun p => (p.1, 0))
  else
    let clean := clean_long_only raw
    let active := clean.filter (fun p => A.eps < p.2)
    if active.length = 0 then clean.map (fun p => (p.1, 0))
    else
      let w0 := budget / active.length
      let w := clean.map (fun p => (p.1, if A.eps < p.2 then w0 else 0))
      match A.cap with
      | some c => cap_and_redistribute w c budget A.eps
      | none => w

/-! ## Basic lemmas about the association-list primitives -/

@[simp] theorem wsum_nil {α : Type} : wsum ([] : List (α × ℚ)) = 0 := rfl

@[simp] theorem wsum_cons {α : Type} (p : α × ℚ) (t : List (α × ℚ)) :
    wsum (p :: t) = p.2 + wsum t := by
  simp [wsum]

theorem wsum_nonneg {α : Type} (l : List (α × ℚ)) (h : ∀ p ∈ l, 0 ≤ p.2) :
    0 ≤ wsum l := by
  induction l with
  | nil => simp
  | cons p t ih =>
    have hp := h p (List.mem_cons_self p t)
    have ht := ih (fun q hq => h q (List.mem_cons_of_mem p hq))
    simpa using add_nonneg hp ht

theorem wsum_perm {α : Type} {l₁ l₂ : List (α × ℚ)} (h : l₁.Perm l₂) :
    wsum l₁ = wsum l₂ :=
  (h.map Prod.snd).sum_eq

theorem wsum_map_scale {α : Type} (l : List (α × ℚ)) (c : ℚ) :
    wsum (l.map (fun p => (p.1, p.2 * c))) = wsum l * c := by
  induction l with
  | nil => simp
  | cons p t ih => simp [ih, add_mul]

theorem wsum_map_div_mul {α : Type} (l : List (α × ℚ)) (s b : ℚ) :
    wsum (l.map (fun p => (p.1, p.2 / s * b))) = wsum l / s * b := by
  induction l with
  | nil => simp
  | cons p t ih => simp [ih]; ring

theorem mem_of_aget {α β : Type} [DecidableEq α] {l : List (α × β)} {k : α} {v : β}
    (h : aget l k = some v) : (k, v) ∈ l := by
  induction l with
  | nil => simp [aget] at h
  | cons p t ih =>
    obtain ⟨k', v'⟩ := p
    by_cases hk : k' = k
    · subst hk
      simp [aget] at h
      subst h
      exact List.mem_cons_self _ _
    · simp [aget, hk] at h
      exact List.mem_cons_of_mem _ (ih h)

theorem aget_eq_none_iff {α β : Type} [DecidableEq α] (l : List (α × β)) (k : α) :
    aget l k = none ↔ k ∉ l.map Prod.fst := by
  induction l with
  | nil => simp [aget]
  | cons p t ih =>
    obtain ⟨k', v'⟩ := p
    by_cases hk : k' = k
    · subst hk
      simp [aget]
    · simp [aget, hk, ih, Ne.symm hk]

theorem aget_of_mem_nodup {α β : Type} [DecidableEq α] {l : List (α × β)} {k : α} {v : β}
    (hmem : (k, v) ∈ l) (hnd : (l.map Prod.fst).Nodup) : aget l k = some v := by
  induction l with
  | nil => simp at hmem
  | cons p t ih =>
    obtain ⟨k', v'⟩ := p
    simp only [List.map_cons, List.nodup_cons] at hnd
    rcases List.mem_cons.mp hmem with h | h
    · obtain ⟨h1, h2⟩ := Prod.mk.injEq .. ▸ h
      simp_all [aget]
    · have hk : k' ≠ k := by
        rintro rfl
        exact hnd.1 (List.mem_map.mpr ⟨(k', v), h, rfl⟩)
      simp [aget, hk]
      exact ih h hnd.2

theorem aget_perm {α β : Type} [DecidableEq α] {l₁ l₂ : List (α × β)}
    (h : l₁.Perm l₂) (hnd : (l₁.map Prod.fst).Nodup) (k : α) :
    aget l₁ k = aget l₂ k := by
  have hnd₂ : (l₂.map Prod.fst).Nodup := ((h.map Prod.fst).nodup_iff).mp hnd
  cases hv : aget l₁ k with
  | none =>
    have := (aget_eq_none_iff l₁ k).mp hv
    have : k ∉ l₂.map Prod.fst := fun hc => this ((h.map Prod.fst).mem_iff.mpr hc)
    exact ((aget_eq_none_iff l₂ k).mpr this).symm
  | some v =>
    exact ((aget_of_mem_nodup (h.mem_iff.mp (mem_of_aget hv)) hnd₂)).symm

theorem any_perm {α : Type} {l₁ l₂ : List α} (h : l₁.Perm l₂) (p : α → Bool) :
    l₁.any p = l₂.any p := by
  induction h with
  | nil => rfl
  | cons x _ ih => simp [ih]
  | swap x y t => simp [Bool.or_left_comm]
  | trans _ _ ih₁ ih₂ => exact ih₁.trans ih₂

/-- Any map whose entry function keeps the key component preserves the key list. -/
theorem map_fst_of_keyfix {α β : Type} (l : List (α × β)) (g : α × β → α × β)
    (hg : ∀ p, (g p).1 = p.1) : (l.map g).map Prod.fst = l.map Prod.fst := by
  induction l with
  | nil => rfl
  | cons p t ih => simp [ih, hg]

/-- Maps of the shape `p ↦ (p.1, f p)` preserve the key list. -/
theorem map_fst_map_pair {α β γ : Type} (l : List (α × β)) (f : α × β → γ) :
    (l.map (fun p => (p.1, f p))).map Prod.fst = l.map Prod.fst := by
  induction l with
  | nil => rfl
  | cons p t ih => simp [ih]

/-! ## Lemmas about the water-filling loop -/

/-- Both `break` guards at the top of a loop pass leave the weights unchanged,
whatever fuel remains. -/
theorem capIter_stop (cap budget eps : ℚ) (fuel : ℕ) (w : List (String × ℚ))
    (h : budget - eps ≤ wsum w ∨ (w.filter (fun p => p.2 < cap - eps)).length = 0) :
    capIter cap budget eps fuel w = w := by
  cases fuel with
  | zero => rfl
  | succ n =>
    rcases h with h | h
    · simp [capIter, h]
    · simp [capIter, h]

/-- The loop of `_cap_and_redistribute` keeps every weight in `[0, cap]`. -/
theorem capIter_bounds (cap budget eps : ℚ) (hcap : 0 ≤ cap) (heps : 0 ≤ eps) :
    ∀ (fuel : ℕ) (w : List (String × ℚ)), (∀ p ∈ w, 0 ≤ p.2 ∧ p.2 ≤ cap) →
      ∀ p ∈ capIter cap budget eps fuel w, 0 ≤ p.2 ∧ p.2 ≤ cap := by
  intro fuel
  induction fuel with
  | zero => intro w hw; simpa [capIter] using hw
  | succ n ih =>
    intro w hw
    rw [capIter]
    by_cases hbreak : budget - eps ≤ wsum w
    · simpa [hbreak] using hw
    · simp only [hbreak, if_false]
      by_cases helig : (w.filter (fun p => p.2 < cap - eps)).length = 0
      · simpa [helig] using hw
      · simp only [helig, if_false]
        have hleft : 0 ≤ budget - wsum w := by
          push_neg at hbreak
          linarith
        set leftover := budget - wsum w with hleftdef
        set elig := w.filter (fun p => p.2 < cap - eps) with heligdef
        have hbase : 0 ≤ wsum elig := by
          refine wsum_nonneg _ (fun p hp => ?_)
          exact (hw p (List.mem_of_mem_filter hp)).1
        have hupd : ∀ v : ℚ, 0 ≤ v →
            (0 ≤ (if wsum elig ≤ eps then fun v => qmin cap (v + leftover / elig.length)
                  else fun v => qmin cap (v + leftover * (v / wsum elig))) v ∧
             (if wsum elig ≤ eps then fun v => qmin cap (v + leftover / elig.length)
                  else fun v => qmin cap (v + leftover * (v / wsum elig))) v ≤ cap) := by
          intro v hv
          by_cases hb : wsum elig ≤ eps
          · simp only [hb, if_true]
            have hlen : (0:ℚ) ≤ (elig.length : ℚ) := by positivity
            have hadd : 0 ≤ leftover / elig.length := div_nonneg hleft hlen
            constructor
            · rw [qmin_eq_min]; exact le_min hcap (by linarith)
            · rw [qmin_eq_min]; exact min_le_left _ _
          · simp only [hb, if_false]
            have hbpos : 0 < wsum elig := by push_neg at hb; linarith
            have hadd : 0 ≤ leftover * (v / wsum elig) :=
              mul_nonneg hleft (div_nonneg hv hbpos.le)
            constructor
            · rw [qmin_eq_min]; exact le_min hcap (by linarith)
            · rw [qmin_eq_min]; exact min_le_left _ _
        have hw' : ∀ p ∈ w.map (fun p =>
            if p.2 < cap - eps then
              (p.1, (if wsum elig ≤ eps then fun v => qmin cap (v + leftover / elig.length)
                     else fun v => qmin cap (v + leftover * (v / wsum elig))) p.2)
            else p), 0 ≤ p.2 ∧ p.2 ≤ cap := by
          intro p hp
          obtain ⟨q, hq, rfl⟩ := List.mem_map.mp hp
          by_cases hqc : q.2 < cap - eps
          · simpa [hqc] using hupd q.2 (hw q hq).1
          · simpa [hqc] using hw q hq
        by_cases hch : w.any (fun p => decide (p.2 < cap - eps) &&
            decide (eps < qabs ((if wsum elig ≤ eps then
              fun v => qmin cap (v + leftover / elig.length)
              else fun v => qmin cap (v + leftover * (v / wsum elig))) p.2 - p.2))) = true
        · simpa [hch] using ih _ hw'
        · simpa [hch] using hw'

/-- Postconditions of `_cap_and_redistribute` for sane cap/budget/eps:
weights stay in `[0, cap + eps]` and the total stays within `budget + eps`. -/
theorem cap_and_redistribute_post (w : List (String × ℚ)) (cap budget eps : ℚ)
    (hw : ∀ p ∈ w, 0 ≤ p.2) (hcap : 0 ≤ cap) (hb : 0 ≤ budget) (heps : 0 ≤ eps) :
    (∀ p ∈ cap_and_redistribute w cap budget eps, 0 ≤ p.2 ∧ p.2 ≤ cap + eps) ∧
      wsum (cap_and_redistribute w cap budget eps) ≤ budget + eps := by
  rw [cap_and_redistribute]
  by_cases hc0 : cap ≤ 0
  · simp only [hc0, if_true]
    constructor
    · intro p hp
      obtain ⟨q, _, rfl⟩ := List.mem_map.mp hp
      constructor
      · exact le_refl 0
      · simpa using add_nonneg hcap heps
    · have : wsum (w.map (fun p => (p.1, (0:ℚ)))) = 0 := by
        induction w with
        | nil => simp
        | cons p t ih => simpa using ih (fun q hq => hw q (List.mem_cons_of_mem p hq))
      rw [this]; linarith
  · simp only [hc0, if_false]
    have hclip : ∀ p ∈ w.map (fun p => (p.1, qmin p.2 cap)), 0 ≤ p.2 ∧ p.2 ≤ cap := by
      intro p hp
      obtain ⟨q, hq, rfl⟩ := List.mem_map.mp hp
      rw [qmin_eq_min]
      exact ⟨le_min (hw q hq) hcap, min_le_right _ _⟩
    have hbound := capIter_bounds cap budget eps hcap heps 10000 _ hclip
    set w2 := capIter cap budget eps 10000 (w.map (fun p => (p.1, qmin p.2 cap))) with hw2
    by_cases hs : budget + eps < wsum w2
    · simp only [hs, if_true]
      have hspos : 0 < wsum w2 := by linarith
      have hscale0 : 0 ≤ budget / wsum w2 := div_nonneg hb hspos.le
      have hscale1 : budget / wsum w2 ≤ 1 := by
        rw [div_le_one hspos]; linarith
      constructor
      · intro p hp
        obtain ⟨q, hq, rfl⟩ := List.mem_map.mp hp
        obtain ⟨hq0, hqc⟩ := hbound q hq
        constructor
        · exact mul_nonneg hq0 hscale0
        · calc q.2 * (budget / wsum w2) ≤ q.2 * 1 := by
                exact mul_le_mul_of_nonneg_left hscale1 hq0
            _ = q.2 := mul_one _
            _ ≤ cap := hqc
            _ ≤ cap + eps := by linarith
      · rw [wsum_map_scale]
        rw [mul_div_assoc']
        rw [mul_comm, mul_div_assoc, div_self hspos.ne', mul_one]
        linarith
    · simp only [hs, if_false]
      push_neg at hs
      refine ⟨fun p hp => ?_, hs⟩
      obtain ⟨h0, h1⟩ := hbound p hp
      exact ⟨h0, by linarith⟩

/-! ## Key-set preservation through the allocation layer -/

theorem capIter_keys (cap budget eps : ℚ) :
    ∀ (fuel : ℕ) (w : List (String × ℚ)),
      (capIter cap budget eps fuel w).map Prod.fst = w.map Prod.fst := by
  intro fuel
  induction fuel with
  | zero => intro w; rfl
  | succ n ih =>
    intro w
    rw [capIter]
    by_cases hbreak : budget - eps ≤ wsum w
    · simp [hbreak]
    · simp only [hbreak, if_false]
      by_cases helig : (w.filter (fun p => p.2 < cap - eps)).length = 0
      · simp [helig]
      · simp only [helig, if_false]
        have hkeys : ∀ (g : ℚ → ℚ),
            (w.map (fun p => if p.2 < cap - eps then (p.1, g p.2) else p)).map Prod.fst
              = w.map Prod.fst := by
          intro g
          refine map_fst_of_keyfix w _ (fun p => ?_)
          by_cases hp : p.2 < cap - eps <;> simp [hp]
        by_cases hch : w.any (fun p => decide (p.2 < cap - eps) &&
            decide (eps < qabs ((if wsum (w.filter (fun p => p.2 < cap - eps)) ≤ eps then
              fun v => qmin cap (v + (budget - wsum w) / (w.filter (fun p => p.2 < cap - eps)).length)
              else fun v => qmin cap (v + (budget - wsum w) *
                (v / wsum (w.filter (fun p => p.2 < cap - eps))))) p.2 - p.2))) = true
        · simp only [hch, if_true]
          rw [ih, hkeys]
        · simp only [hch, if_false]
          exact hkeys _

theorem cap_and_redistribute_keys (w : List (String × ℚ)) (cap budget eps : ℚ) :
    (cap_and_redistribute w cap budget eps).map Prod.fst = w.map Prod.fst := by
  rw [cap_and_redistribute]
  by_cases hc0 : cap ≤ 0
  · simp only [hc0, if_true]
    exact map_fst_map_pair w _
  · simp only [hc0, if_false]
    have h1 : (w.map (fun p => (p.1, qmin p.2 cap))).map Prod.fst = w.map Prod.fst :=
      map_fst_map_pair w _
    set w2 := capIter cap budget eps 10000 (w.map (fun p => (p.1, qmin p.2 cap))) with hw2
    have h2 : w2.map Prod.fst = w.map Prod.fst := by
      rw [hw2, capIter_keys, h1]
    by_cases hs : budget + eps < wsum w2
    · simp only [hs, if_true]
      rw [map_fst_map_pair w2 _, h2]
    · simp only [hs, if_false]
      exact h2

theorem clean_long_only_keys (raw : List (String × RawVal)) :
    (clean_long_only raw).map Prod.fst = raw.map Prod.fst :=
  map_fst_map_pair raw _

theorem proportional_allocate_keys (A : ProportionalAllocator)
    (raw : List (String × RawVal)) (budget : ℚ) :
    (A.allocate raw budget).map Prod.fst = raw.map Prod.fst := by
  rw [ProportionalAllocator.allocate]
  by_cases hb : budget ≤ 0
  · simp only [hb, if_true]
    exact map_fst_map_pair raw _
  · simp only [hb, if_false]
    by_cases hs : wsum (clean_long_only raw) ≤ A.eps
    · simp only [hs, if_true]
      rw [map_fst_map_pair, clean_long_only_keys]
    · simp only [hs, if_false]
      have hw : (((clean_long_only raw).map
          (fun p => (p.1, p.2 / wsum (clean_long_only raw) * budget))).map Prod.fst)
            = raw.map Prod.fst := by
        rw [map_fst_map_pair, clean_long_only_keys]
      cases hcap : A.cap with
      | some c =>
        simp only [hcap]
        rw [cap_and_redistribute_keys, hw]
      | none =>
        simp only [hcap]
        by_cases hsw : budget + A.eps < wsum ((clean_long_only raw).map
            (fun p => (p.1, p.2 / wsum (clean_long_only raw) * budget)))
        · simp only [hsw, if_true]
          rw [map_fst_map_pair, hw]
        · simp only [hsw, if_false]
          exact hw

theorem equalweight_allocate_keys (A : EqualWeightAllocator)
    (raw : List (String × RawVal)) (budget : ℚ) :
    (A.allocate raw budget).map Prod.fst = raw.map Prod.fst := by
  rw [EqualWeightAllocator.allocate]
  by_cases hb : budget ≤ 0
  · simp only [hb, if_true]
    exact map_fst_map_pair raw _
  · simp only [hb, if_false]
    by_cases ha : ((clean_long_only raw).filter (fun p => A.eps < p.2)).length = 0
    · simp only [ha, if_true]
      rw [map_fst_map_pair, clean_long_only_keys]
    · simp only [ha, if_false]
      have hw : (((clean_long_only raw).map (fun p => (p.1,
          if A.eps < p.2 then budget / ((clean_long_only raw).filter
            (fun p => A.eps < p.2)).length else 0))).map Prod.fst) = raw.map Prod.fst := by
        rw [map_fst_map_pair, clean_long_only_keys]
      cases hcap : A.cap with
      | some c =>
        simp only [hcap]
        rw [cap_and_redistribute_keys, hw]
      | none =>
        simp only [hcap]
        exact hw

theorem wsum_map_zero {α β : Type} (l : List (α × β)) :
    wsum (l.map (fun p => (p.1, (0:ℚ)))) = 0 := by
  induction l with
  | nil => simp
  | cons p t ih => simpa using ih

theorem clean_long_only_nonneg (raw : List (String × RawVal)) :
    ∀ p ∈ clean_long_only raw, 0 ≤ p.2 := by
  intro p hp
  obtain ⟨q, _, rfl⟩ := List.mem_map.mp hp
  cases h : q.2 with
  | num x =>
    by_cases hx : x < 0 <;> simp [sanitizeRaw, h, hx]
    linarith
  | nan => simp [sanitizeRaw, h]
  | garbage => simp [sanitizeRaw, h]

theorem wsum_map_ite {α : Type} (l : List (α × ℚ)) (c : α × ℚ → Prop)
    [DecidablePred c] (w0 : ℚ) :
    wsum (l.map (fun p => (p.1, if c p then w0 else 0)))
      = (l.countP (fun p => decide (c p))) * w0 := by
  induction l with
  | nil => simp
  | cons p t ih =>
    by_cases hp : c p
    · simp [hp, ih, List.countP_cons]
      ring
    · simp [hp, ih, List.countP_cons]

/-- Postconditions of `ProportionalAllocator.allocate` under nonnegative
budget, eps and cap: all weights nonnegative, capped weights below `cap + eps`,
total below `budget + eps` — for arbitrary raw input, NaN and garbage included. -/
theorem proportional_allocate_post (A : ProportionalAllocator)
    (raw : List (String × RawVal)) (budget : ℚ)
    (hb : 0 ≤ budget) (heps : 0 ≤ A.eps) (hcap : ∀ c ∈ A.cap, 0 ≤ c) :
    (∀ p ∈ A.allocate raw budget,
        0 ≤ p.2 ∧ ∀ c ∈ A.cap, p.2 ≤ c + A.eps) ∧
      wsum (A.allocate raw budget) ≤ budget + A.eps := by
  rw [ProportionalAllocator.allocate]
  by_cases hb0 : budget ≤ 0
  · have hbz : budget = 0 := le_antisymm hb0 hb
    simp only [hb0, if_true]
    constructor
    · intro p hp
      obtain ⟨q, _, rfl⟩ := List.mem_map.mp hp
      refine ⟨le_refl 0, fun c hc => ?_⟩
      have := hcap c hc
      simp only
      linarith
    · rw [wsum_map_zero]; linarith
  · simp only [hb0, if_false]
    by_cases hs : wsum (clean_long_only raw) ≤ A.eps
    · simp only [hs, if_true]
      constructor
      · intro p hp
        obtain ⟨q, _, rfl⟩ := List.mem_map.mp hp
        refine ⟨le_refl 0, fun c hc => ?_⟩
        have := hcap c hc
        simp only
        linarith
      · rw [wsum_map_zero]; linarith
    · simp only [hs, if_false]
      push_neg at hs hb0
      have hspos : 0 < wsum (clean_long_only raw) := lt_of_le_of_lt heps hs
      have hwnn : ∀ p ∈ (clean_long_only raw).map
          (fun p => (p.1, p.2 / wsum (clean_long_only raw) * budget)), 0 ≤ p.2 := by
        intro p hp
        obtain ⟨q, hq, rfl⟩ := List.mem_map.mp hp
        exact mul_nonneg (div_nonneg (clean_long_only_nonneg raw q hq) hspos.le) hb
      have hwsum : wsum ((clean_long_only raw).map
          (fun p => (p.1, p.2 / wsum (clean_long_only raw) * budget))) = budget := by
        rw [wsum_map_div_mul, div_self hspos.ne', one_mul]
      cases hc : A.cap with
      | some c =>
        simp only [hc]
        have hc0 : 0 ≤ c := hcap c (by simp [hc])
        obtain ⟨h1, h2⟩ := cap_and_redistribute_post _ c budget A.eps hwnn hc0 hb heps
        refine ⟨fun p hp => ?_, h2⟩
        obtain ⟨h10, h11⟩ := h1 p hp
        exact ⟨h10, fun c' hc' => by
          simp [hc] at hc'
          exact hc' ▸ h11⟩
      | none =>
        simp only [hc]
        rw [hwsum]
        have hcond : ¬ budget + A.eps < budget := by linarith
        simp only [hcond, if_false]
        refine ⟨fun p hp => ⟨hwnn p hp, fun c hc' => by simp [hc] at hc'⟩, ?_⟩
        rw [hwsum]; linarith

/-- Postconditions of `EqualWeightAllocator.allocate`, mirroring
`proportional_allocate_post`. -/
theorem equalweight_allocate_post (A : EqualWeightAllocator)
    (raw : List (String × RawVal)) (budget : ℚ)
    (hb : 0 ≤ budget) (heps : 0 ≤ A.eps) (hcap : ∀ c ∈ A.cap, 0 ≤ c) :
    (∀ p ∈ A.allocate raw budget,
        0 ≤ p.2 ∧ ∀ c ∈ A.cap, p.2 ≤ c + A.eps) ∧
      wsum (A.allocate raw budget) ≤ budget + A.eps := by
  rw [EqualWeightAllocator.allocate]
  by_cases hb0 : budget ≤ 0
  · have hbz : budget = 0 := le_antisymm hb0 hb
    simp only [hb0, if_true]
    constructor
    · intro p hp
      obtain ⟨q, _, rfl⟩ := List.mem_map.mp hp
      refine ⟨le_refl 0, fun c hc => ?_⟩
      have := hcap c hc
      simp only
      linarith
    · rw [wsum_map_zero]; linarith
  · simp only [hb0, if_false]
    by_cases ha : ((clean_long_only raw).filter (fun p => A.eps < p.2)).length = 0
    · simp only [ha, if_true]
      constructor
      · intro p hp
        obtain ⟨q, _, rfl⟩ := List.mem_map.mp hp
        refine ⟨le_refl 0, fun c hc => ?_⟩
        have := hcap c hc
        simp only
        linarith
      · rw [wsum_map_zero]; linarith
    · simp only [ha, if_false]
      push_neg at hb0
      set len := ((clean_long_only raw).filter (fun p => A.eps < p.2)).length with hlen
      have hlpos : 0 < (len : ℚ) := by
        have : 0 < len := Nat.pos_of_ne_zero ha
        exact_mod_cast this
      have hw0 : 0 ≤ budget / (len : ℚ) := div_nonneg hb hlpos.le
      have hwnn : ∀ p ∈ (clean_long_only raw).map
          (fun p => (p.1, if A.eps < p.2 then budget / (len : ℚ) else 0)), 0 ≤ p.2 := by
        intro p hp
        obtain ⟨q, hq, rfl⟩ := List.mem_map.mp hp
        by_cases hqe : A.eps < q.2 <;> simp [hqe, hw0]
      have hwsum : wsum ((clean_long_only raw).map
          (fun p => (p.1, if A.eps < p.2 then budget / (len : ℚ) else 0))) = budget := by
        rw [wsum_map_ite _ (fun p => A.eps < p.2)]
        have hcount : (clean_long_only raw).countP (fun p => decide (A.eps < p.2)) = len := by
          rw [hlen, List.countP_eq_length_filter]
        rw [hcount, mul_div_cancel₀ _ hlpos.ne']
      cases hc : A.cap with
      | some c =>
        simp only [hc]
        have hc0 : 0 ≤ c := hcap c (by simp [hc])
        obtain ⟨h1, h2⟩ := cap_and_redistribute_post _ c budget A.eps hwnn hc0 hb heps
        refine ⟨fun p hp => ?_, h2⟩
        obtain ⟨h10, h11⟩ := h1 p hp
        exact ⟨h10, fun c' hc' => by
          simp [hc] at hc'
          exact hc' ▸ h11⟩
      | none =>
        simp only [hc]
        refine ⟨fun p hp => ⟨hwnn p hp, fun c hc' => by simp [hc] at hc'⟩, ?_⟩
        rw [hwsum]; linarith

/-! ## Order-independence of the allocation layer -/

theorem capIter_perm (cap budget eps : ℚ) :
    ∀ (fuel : ℕ) {w₁ w₂ : List (String × ℚ)}, w₁.Perm w₂ →
      (capIter cap budget eps fuel w₁).Perm (capIter cap budget eps fuel w₂) := by
  intro fuel
  induction fuel with
  | zero => intro w₁ w₂ h; simpa [capIter] using h
  | succ n ih =>
    intro w₁ w₂ h
    rw [capIter, capIter]
    have hs : wsum w₂ = wsum w₁ := (wsum_perm h).symm
    have hfil : (w₁.filter (fun p => p.2 < cap - eps)).Perm
        (w₂.filter (fun p => p.2 < cap - eps)) := h.filter _
    have hlen : (w₂.filter (fun p => p.2 < cap - eps)).length
        = (w₁.filter (fun p => p.2 < cap - eps)).length := hfil.length_eq.symm
    have hbase : wsum (w₂.filter (fun p => p.2 < cap - eps))
        = wsum (w₁.filter (fun p => p.2 < cap - eps)) := (wsum_perm hfil).symm
    simp only [hs, hlen, hbase]
    by_cases hbreak : budget - eps ≤ wsum w₁
    · simpa [hbreak] using h
    · simp only [hbreak, if_false]
      by_cases helig : (w₁.filter (fun p => p.2 < cap - eps)).length = 0
      · simpa [helig] using h
      · simp only [helig, if_false]
        have hany := any_perm h (fun p => decide (p.2 < cap - eps) &&
          decide (eps < qabs ((if wsum (w₁.filter (fun p => p.2 < cap - eps)) ≤ eps then
            fun v => qmin cap (v + (budget - wsum w₁) /
              (w₁.filter (fun p => p.2 < cap - eps)).length)
            else fun v => qmin cap (v + (budget - wsum w₁) *
              (v / wsum (w₁.filter (fun p => p.2 < cap - eps))))) p.2 - p.2)))
        rw [← hany]
        by_cases hch : w₁.any (fun p => decide (p.2 < cap - eps) &&
            decide (eps < qabs ((if wsum (w₁.filter (fun p => p.2 < cap - eps)) ≤ eps then
              fun v => qmin cap (v + (budget - wsum w₁) /
                (w₁.filter (fun p => p.2 < cap - eps)).length)
              else fun v => qmin cap (v + (budget - wsum w₁) *
                (v / wsum (w₁.filter (fun p => p.2 < cap - eps))))) p.2 - p.2))) = true
        · simp only [hch, if_true]
          exact ih (h.map _)
        · simp only [hch, if_false]
          exact h.map _

theorem cap_and_redistribute_perm {w₁ w₂ : List (String × ℚ)} (cap budget eps : ℚ)
    (h : w₁.Perm w₂) :
    (cap_and_redistribute w₁ cap budget eps).Perm
      (cap_and_redistribute w₂ cap budget eps) := by
  rw [cap_and_redistribute, cap_and_redistribute]
  by_cases hc0 : cap ≤ 0
  · simp only [hc0, if_true]
    exact h.map _
  · simp only [hc0, if_false]
    have hiter := capIter_perm cap budget eps 10000 (h.map (fun p => (p.1, qmin p.2 cap)))
    have hsum : wsum (capIter cap budget eps 10000
          (w₂.map (fun p => (p.1, qmin p.2 cap))))
        = wsum (capIter cap budget eps 10000
          (w₁.map (fun p => (p.1, qmin p.2 cap)))) := (wsum_perm hiter).symm
    simp only [hsum]
    by_cases hs : budget + eps < wsum (capIter cap budget eps 10000
        (w₁.map (fun p => (p.1, qmin p.2 cap))))
    · simp only [hs, if_true]
      exact hiter.map _
    · simp only [hs, if_false]
      exact hiter

theorem proportional_allocate_perm (A : ProportionalAllocator)
    {raw₁ raw₂ : List (String × RawVal)} (budget : ℚ) (h : raw₁.Perm raw₂) :
    (A.allocate raw₁ budget).Perm (A.allocate raw₂ budget) := by
  rw [ProportionalAllocator.allocate, ProportionalAllocator.allocate]
  have hclean : (clean_long_only raw₁).Perm (clean_long_only raw₂) := h.map _
  have hsum : wsum (clean_long_only raw₂) = wsum (clean_long_only raw₁) :=
    (wsum_perm hclean).symm
  simp only [hsum]
  by_cases hb : budget ≤ 0
  · simp only [hb, if_true]
    exact h.map _
  · simp only [hb, if_false]
    by_cases hs : wsum (clean_long_only raw₁) ≤ A.eps
    · simp only [hs, if_true]
      exact hclean.map _
    · simp only [hs, if_false]
      have hw : ((clean_long_only raw₁).map
            (fun p => (p.1, p.2 / wsum (clean_long_only raw₁) * budget))).Perm
          ((clean_long_only raw₂).map
            (fun p => (p.1, p.2 / wsum (clean_long_only raw₁) * budget))) :=
        hclean.map _
      cases hc : A.cap with
      | some c =>
        simp only [hc]
        exact cap_and_redistribute_perm c budget A.eps hw
      | none =>
        simp only [hc]
        have hw2 : wsum ((clean_long_only raw₂).map
              (fun p => (p.1, p.2 / wsum (clean_long_only raw₁) * budget)))
            = wsum ((clean_long_only raw₁).map
              (fun p => (p.1, p.2 / wsum (clean_long_only raw₁) * budget))) :=
          (wsum_perm hw).symm
        simp only [hw2]
        by_cases hsw : budget + A.eps < wsum ((clean_long_only raw₁).map
            (fun p => (p.1, p.2 / wsum (clean_long_only raw₁) * budget)))
        · simp only [hsw, if_true]
          exact hw.map _
        · simp only [hsw, if_false]
          exact hw

/-! ## Claim theorems for the allocation layer -/

/-- C2, counterexample to the claim as stated: with a negative budget (and a
negative cap) the allocator returns all-zero weights, whose sum `0` is NOT
below `budget + eps = -1 + 1e-12`, and the weight `0` is NOT below
`cap + eps = -1 + 1e-12`.  The universal claim over "every budget, and every
optional cap c" is therefore false. -/
theorem C2_counterexample :
    ¬ (wsum (ProportionalAllocator.allocate ⟨some (-1), 1/1000000000000⟩
        [("A", RawVal.num 1)] (-1)) ≤ -1 + 1/1000000000000) ∧
    ¬ (∀ p ∈ ProportionalAllocator.allocate ⟨some (-1), 1/1000000000000⟩
        [("A", RawVal.num 1)] (-1), p.2 ≤ -1 + 1/1000000000000) := by
  have h : ProportionalAllocator.allocate ⟨some (-1), 1/1000000000000⟩
      [("A", RawVal.num 1)] (-1) = [("A", 0)] := by
    rw [ProportionalAllocator.allocate]
    norm_num
  constructor
  · rw [h]
    norm_num [wsum]
  · intro hall
    have := hall ("A", 0) (by rw [h]; exact List.mem_singleton.mpr rfl)
    norm_num at this

/-- C2 (amended: budget, eps and cap restricted to be nonnegative, which the
configuration contract `budget > 0`, `eps > 0`, `cap ∈ (0,1]` guarantees):
for every raw input map — NaN, negative and garbage values included — both
`ProportionalAllocator.allocate` and `EqualWeightAllocator.allocate` return
weights that are all nonnegative, all below `cap + eps` whenever a cap is set,
and whose sum is below `budget + eps`.  (The functions are total, so they
never raise.) -/
theorem C2_alloc_postconditions
    (P : ProportionalAllocator) (E : EqualWeightAllocator)
    (rawP rawE : List (String × RawVal)) (bP bE : ℚ)
    (hbP : 0 ≤ bP) (hepsP : 0 ≤ P.eps) (hcapP : ∀ c ∈ P.cap, 0 ≤ c)
    (hbE : 0 ≤ bE) (hepsE : 0 ≤ E.eps) (hcapE : ∀ c ∈ E.cap, 0 ≤ c) :
    ((∀ p ∈ P.allocate rawP bP, 0 ≤ p.2 ∧ ∀ c ∈ P.cap, p.2 ≤ c + P.eps) ∧
       wsum (P.allocate rawP bP) ≤ bP + P.eps) ∧
    ((∀ p ∈ E.allocate rawE bE, 0 ≤ p.2 ∧ ∀ c ∈ E.cap, p.2 ≤ c + E.eps) ∧
       wsum (E.allocate rawE bE) ≤ bE + E.eps) :=
  ⟨proportional_allocate_post P rawP bP hbP hepsP hcapP,
   equalweight_allocate_post E rawE bE hbE hepsE hcapE⟩

/-- C2 witness: the amended postconditions instantiated at a concrete garbage
input (one clean value, one NaN, one garbage, one negative), cap 1/2,
budget 1. -/
theorem C2_witness :
    ((∀ p ∈ ProportionalAllocator.allocate ⟨some (1/2), 1/1000000000000⟩
          [("A", RawVal.num 1), ("B", RawVal.nan), ("C", RawVal.garbage),
           ("D", RawVal.num (-3))] 1,
        0 ≤ p.2 ∧ ∀ c ∈ (some (1/2) : Option ℚ), p.2 ≤ c + 1/1000000000000) ∧
      wsum (ProportionalAllocator.allocate ⟨some (1/2), 1/1000000000000⟩
          [("A", RawVal.num 1), ("B", RawVal.nan), ("C", RawVal.garbage),
           ("D", RawVal.num (-3))] 1) ≤ 1 + 1/1000000000000) ∧
    ((∀ p ∈ EqualWeightAllocator.allocate ⟨none, 1/1000000000000⟩
          [("A", RawVal.num 1), ("B", RawVal.num 0)] 1,
        0 ≤ p.2 ∧ ∀ c ∈ (none : Option ℚ), p.2 ≤ c + 1/1000000000000) ∧
      wsum (EqualWeightAllocator.allocate ⟨none, 1/1000000000000⟩
          [("A", RawVal.num 1), ("B", RawVal.num 0)] 1) ≤ 1 + 1/1000000000000) :=
  C2_alloc_postconditions
    ⟨some (1/2), 1/1000000000000⟩ ⟨none, 1/1000000000000⟩
    [("A", RawVal.num 1), ("B", RawVal.nan), ("C", RawVal.garbage),
     ("D", RawVal.num (-3))]
    [("A", RawVal.num 1), ("B", RawVal.num 0)] 1 1
    (by norm_num) (by norm_num)
    (by intro c hc; simp only [Option.mem_def, Option.some.injEq] at hc; rw [← hc]; norm_num)
    (by norm_num) (by norm_num) (by intro c hc; simp at hc)

/-- C5: the spec's "stuck at cap" water-filling scenario.  Proportional
allocation with cap 0.3 on raw `{A: 10, B: 1}` and budget 1: the uncapped
proportional weights `{A: 10/11, B: 1/11}` are clipped at the cap, one
water-filling pass raises B to its cap, and the loop then stops because no
instrument can absorb more, returning `{A: 0.3, B: 0.3}` (sum 0.6). -/
theorem C5_cap_water_filling :
    ProportionalAllocator.allocate ⟨some (3/10), 1/1000000000000⟩
      [("A", RawVal.num 10), ("B", RawVal.num 1)] 1
      = [("A", 3/10), ("B", 3/10)] := by
  have h2 : capIter (3/10) 1 (1/1000000000000) 10000 [("A",(3/10:ℚ)),("B",1/11)]
      = [("A",3/10),("B",3/10)] := by
    rw [show (10000:ℕ) = 9999+1 from rfl, capIter]
    norm_num [wsum, qmin, qabs]
    exact capIter_stop _ _ _ _ _ (Or.inr (by norm_num))
  rw [ProportionalAllocator.allocate]
  norm_num [clean_long_only, sanitizeRaw, wsum]
  rw [cap_and_redistribute]
  norm_num [qmin, wsum, h2]

/-- C7: `ProportionalAllocator.allocate` is deterministic (a pure function:
calling it twice on the same input gives syntactically the same result) and
order-independent: on inputs that are permutations of each other (with the
usual dict guarantee that keys are unique), every symbol is assigned the same
weight. -/
theorem C7_proportional_order_independent (A : ProportionalAllocator)
    (raw₁ raw₂ : List (String × RawVal)) (budget : ℚ)
    (hperm : raw₁.Perm raw₂) (hnd : (raw₁.map Prod.fst).Nodup) :
    A.allocate raw₁ budget = A.allocate raw₁ budget ∧
    ∀ k, aget (A.allocate raw₁ budget) k = aget (A.allocate raw₂ budget) k := by
  refine ⟨rfl, fun k => ?_⟩
  have hout : (A.allocate raw₁ budget).Perm (A.allocate raw₂ budget) :=
    proportional_allocate_perm A budget hperm
  have hkeys : (A.allocate raw₁ budget).map Prod.fst = raw₁.map Prod.fst :=
    proportional_allocate_keys A raw₁ budget
  refine aget_perm hout ?_ k
  rw [hkeys]
  exact hnd

/-- C7 witness: the two-symbol map `{A: 1, B: 2}` and its reversal get the
same weight for every symbol. -/
theorem C7_witness :
    (ProportionalAllocator.allocate ⟨none, 1/1000000000000⟩
        [("A", RawVal.num 1), ("B", RawVal.num 2)] 1
      = ProportionalAllocator.allocate ⟨none, 1/1000000000000⟩
        [("A", RawVal.num 1), ("B", RawVal.num 2)] 1) ∧
    ∀ k, aget (ProportionalAllocator.allocate ⟨none, 1/1000000000000⟩
        [("A", RawVal.num 1), ("B", RawVal.num 2)] 1) k
      = aget (ProportionalAllocator.allocate ⟨none, 1/1000000000000⟩
        [("B", RawVal.num 2), ("A", RawVal.num 1)] 1) k :=
  C7_proportional_order_independent ⟨none, 1/1000000000000⟩
    [("A", RawVal.num 1), ("B", RawVal.num 2)]
    [("B", RawVal.num 2), ("A", RawVal.num 1)] 1
    (List.Perm.swap ("B", RawVal.num 2) ("A", RawVal.num 1) [])
    (by simp)

/-- C10: both allocators return a map with exactly the key list of the raw
input — every input symbol receives a weight and no other symbol appears. -/
theorem C10_allocate_keys_preserved (P : ProportionalAllocator)
    (E : EqualWeightAllocator) (raw : List (String × RawVal)) (budget : ℚ) :
    (P.allocate raw budget).map Prod.fst = raw.map Prod.fst ∧
    (E.allocate raw budget).map Prod.fst = raw.map Prod.fst :=
  ⟨proportional_allocate_keys P raw budget,
   equalweight_allocate_keys E raw budget⟩

/-! ## Execution layer: domain records (`core_types.py`) -/

/-- One OHLCV bar (a row of the bars DataFrame). -/
structure Bar : Type where
  Open : ℚ
  High : ℚ
  Low : ℚ
  Close : ℚ
  Volume : ℚ
deriving DecidableEq

/-- `MarketData`: a bars frame (time-indexed rows) plus a symbol. -/
structure MarketData : Type where
  bars : List (ℕ × Bar)
  symbol : String

/-- A float signal value: NaN or a number (`pd.isna` distinguishes them). -/
inductive FVal : Type
  | nan
  | num (q : ℚ)
deriving DecidableEq

/-- `Signals`: a time-indexed target-position series. -/
structure Signals : Type where
  target_position : List (ℕ × FVal)

/-- The NaN resolution of step 2 of the per-bar transition: `pd.isna` sends
NaN to fraction 0, a number is taken as is. -/
def fvalOf : FVal → ℚ
  | .nan => 0
  | .num q => q

/-- `PortfolioState`: cash, positions, last prices and derived equity. -/
structure PortfolioState : Type where
  cash : ℚ
  positions : List (String × ℚ) := []
  last_prices : List (String × ℚ) := []
  equity : ℚ := 0
deriving DecidableEq

/-- `Fill`: an immutable trade record. -/
structure Fill : Type where
  symbol : String
  ts : ℕ
  price : ℚ
  qty : ℚ
  fee : ℚ
deriving DecidableEq

/-- The `fill_price` option, validated at model construction ("open"/"close"). -/
inductive FillPrice : Type
  | openPx
  | closePx
deriving DecidableEq

/-- `ExecutionParams` with the source defaults. -/
structure ExecutionParams : Type where
  fee_bps : ℚ := 1
  slippage_bps : ℚ := 1
  fill_price : FillPrice := .openPx
  eps : ℚ := 1 / 10 ^ 12

/-- `row[fill_col]`. -/
def fillColPrice : FillPrice → Bar → ℚ
  | .openPx, b => b.Open
  | .closePx, b => b.Close

/-- `compute_equity(cash, pos, lp)`: cash plus qty×last-price over held
positions, skipping symbols with no known price. -/
def compute_equity (cash : ℚ) (pos lp : List (String × ℚ)) : ℚ :=
  cash + (pos.map (fun p =>
    match aget lp p.1 with
    | none => 0
    | some px => p.2 * px)).sum

/-- Working state of one run: the mutable locals of `run` (cash, positions,
last prices) plus the accumulated fills and snapshots. -/
structure WState : Type where
  cash : ℚ
  positions : List (String × ℚ)
  last_prices : List (String × ℚ)
  fills : List Fill
  states : List PortfolioState

/-! ## Single-asset execution (`execution.py`, `NextBarExecutionModel.run`) -/

/-- One iteration of the bar loop of `NextBarExecutionModel.run`.
A Python `raise` (explicit `ValueError`s, the `.loc` KeyError, and the
float division-by-zero on a zero Close) becomes `Except.error`. -/
def stepBar (P : ExecutionParams) (symbol : String) (tp : List (ℕ × FVal))
    (st : WState) (tb : ℕ × Bar) : Except String WState :=
  let ts := tb.1
  let row := tb.2
  let close_price := row.Close
  let lp := aset st.last_prices symbol close_price
  let cur_qty := agetD st.positions symbol 0
  match aget tp ts with
  | none => .error "KeyError"
  | some desired_raw =>
    let target_fraction : ℚ := match desired_raw with | .nan => 0 | .num q => q
    if ¬ (0 ≤ target_fraction ∧ target_fraction ≤ 1) then
      .error "target_fraction out of range"
    else
      let equity_for_sizing := compute_equity st.cash st.positions lp
      if close_price = 0 then .error "ZeroDivisionError"
      else
        let desired_qty := target_fraction * equity_for_sizing / close_price
        let delta := desired_qty - cur_qty
        if P.eps < qabs delta then
          let raw_price := fillColPrice P.fill_price row
          let slip := P.slippage_bps / 10000
          let exec_price := if 0 < delta then raw_price * (1 + slip)
                            else raw_price * (1 - slip)
          let notional := qabs delta * exec_price
          let fee := notional * (P.fee_bps / 10000)
          let cash := st.cash - delta * exec_price - fee
          let new_qty := cur_qty + delta
          let positions := if qabs new_qty < P.eps then adel st.positions symbol
                           else aset st.positions symbol new_qty
          let equity := compute_equity cash positions lp
          .ok ⟨cash, positions, lp,
               st.fills ++ [⟨symbol, ts, exec_price, delta, fee⟩],
               st.states ++ [⟨cash, positions, lp, equity⟩]⟩
        else
          let equity := compute_equity st.cash st.positions lp
          .ok ⟨st.cash, st.positions, lp, st.fills,
               st.states ++ [⟨st.cash, st.positions, lp, equity⟩]⟩

/-- The bar loop of `NextBarExecutionModel.run`. -/
def runBars (P : ExecutionParams) (symbol : String) (tp : List (ℕ × FVal)) :
    WState → List (ℕ × Bar) → Except String WState
  | st, [] => .ok st
  | st, tb :: rest =>
    match stepBar P symbol tp st tb with
    | .error e => .error e
    | .ok st' => runBars P symbol tp st' rest

/-- `NextBarExecutionModel.run(md, sig, initial_state)`. -/
def NextBarExecutionModel.run (P : ExecutionParams) (md : MarketData)
    (sig : Signals) (initial_state : PortfolioState) :
    Except String (List Fill × List PortfolioState) :=
  if sig.target_position.map Prod.fst ≠ md.bars.map Prod.fst then
    .error "Signals.target_position.index must match MarketData.bars.index"
  else
    match runBars P md.symbol sig.target_position
        ⟨initial_state.cash, initial_state.positions, initial_state.last_prices,
         [], []⟩ md.bars with
    | .error e => .error e
    | .ok w => .ok (w.fills, w.states)

/-! ## Multi-asset execution (`multi_execution.py`) -/

/-- `MultiMarketData`: one `MarketData` per symbol (dict, insertion-ordered). -/
structure MultiMarketData : Type where
  data : List (String × MarketData)

/-- `mmd.symbols` = `list(self.data.keys())`. -/
def MultiMarketData.symbols (m : MultiMarketData) : List String :=
  m.data.map Prod.fst

/-- `mmd.index` = the first member's bar index (`next(iter(...))`; assumes
alignment was done upstream). -/
def MultiMarketData.index (m : MultiMarketData) : List ℕ :=
  match m.data with
  | [] => []
  | (_, md) :: _ => md.bars.map Prod.fst

/-- The up-front per-symbol signal checks of `MultiNextBarExecutionModel.run`
(symbol present, index equal to the shared index), in symbols order. -/
def checkSigs (idx : List ℕ) (sigs : List (String × Signals)) :
    List String → Except String Unit
  | [] => .ok ()
  | sym :: rest =>
    match aget sigs sym with
    | none => .error "Missing signals for symbol"
    | some sg =>
      if sg.target_position.map Prod.fst = idx then checkSigs idx sigs rest
      else .error "Signals index must match bars index"

/-- The mark pass of one bar: `last_prices[sym] = bars.at[ts, Close]` for
every symbol, before any trading. -/
def markPass (data : List (String × MarketData)) (ts : ℕ) :
    List String → List (String × ℚ) → Except String (List (String × ℚ))
  | [], lp => .ok lp
  | sym :: rest, lp =>
    match aget data sym with
    | none => .error "KeyError"
    | some md =>
      match aget md.bars ts with
      | none => .error "KeyError"
      | some row => markPass data ts rest (aset lp sym row.Close)

/-- Shared cash/positions/fills state during the trade pass of one bar. -/
structure TradeState : Type where
  cash : ℚ
  positions : List (String × ℚ)
  fills : List Fill

/-- Execution price of the multi-asset trade: the fill column adjusted by
slippage (buys pay more, sells receive less). -/
def execPriceOf (P : ExecutionParams) (row : Bar) (delta0 : ℚ) : ℚ :=
  let raw_price := fillColPrice P.fill_price row
  let slip_rate := P.slippage_bps / 10000
  if 0 < delta0 then raw_price * (1 + slip_rate) else raw_price * (1 - slip_rate)

/-- The A1.1 buy-side constraint: do not overspend on buys.  A buy delta is
clamped to the largest quantity whose notional plus fee fits in cash; sells
pass through unchanged. -/
def clampBuy (P : ExecutionParams) (cash exec_price delta0 : ℚ) : ℚ :=
  if 0 < delta0 then
    let denom := exec_price * (1 + P.fee_bps / 10000)
    let mbq0 := if 0 < denom then cash / denom else 0
    let mbq := if mbq0 < 0 then 0 else mbq0
    if mbq < delta0 then mbq else delta0
  else delta0

/-- Settlement of one multi-asset trade: fee on notional, cash and position
update, near-zero cash snapped to exactly zero, and the appended Fill. -/
def settleTrade (P : ExecutionParams) (sym : String) (ts : ℕ)
    (st : TradeState) (cur_qty delta exec_price : ℚ) : TradeState :=
  let notional := qabs delta * exec_price
  let fee := notional * (P.fee_bps / 10000)
  let cash1 := st.cash - delta * exec_price - fee
  let cash2 := if qabs cash1 < P.eps then 0 else cash1
  let new_qty := cur_qty + delta
  let positions := if qabs new_qty < P.eps then adel st.positions sym
                   else aset st.positions sym new_qty
  ⟨cash2, positions, st.fills ++ [⟨sym, ts, exec_price, delta, fee⟩]⟩

/-- One symbol's slice of the trade pass of `MultiNextBarExecutionModel.run`:
sizing keyed to Close, the buy-side cash clamp, then settlement. -/
def tradeSym (P : ExecutionParams) (data : List (String × MarketData))
    (sigs : List (String × Signals)) (ts : ℕ) (lp : List (String × ℚ))
    (st : TradeState) (sym : String) : Except String TradeState :=
  match aget data sym with
  | none => .error "KeyError"
  | some md =>
    match aget md.bars ts with
    | none => .error "KeyError"
    | some row =>
      let close_price := row.Close
      let cur_qty := agetD st.positions sym 0
      match aget sigs sym with
      | none => .error "KeyError"
      | some sg =>
        match aget sg.target_position ts with
        | none => .error "KeyError"
        | some desired_raw =>
          let target_fraction : ℚ :=
            match desired_raw with | .nan => 0 | .num q => q
          if ¬ (0 ≤ target_fraction ∧ target_fraction ≤ 1) then
            .error "target_fraction out of range"
          else
            let equity_for_sizing := compute_equity st.cash st.positions lp
            if close_price ≤ 0 then .error "Close price must be positive"
            else
              let desired_qty := target_fraction * equity_for_sizing / close_price
              let delta0 := desired_qty - cur_qty
              if qabs delta0 ≤ P.eps then .ok st
              else
                let exec_price := execPriceOf P row delta0
                let delta := clampBuy P st.cash exec_price delta0
                if qabs delta ≤ P.eps then .ok st
                else .ok (settleTrade P sym ts st cur_qty delta exec_price)

/-- The trade pass of one bar: all symbols in the fixed `symbols` order. -/
def tradePass (P : ExecutionParams) (data : List (String × MarketData))
    (sigs : List (String × Signals)) (ts : ℕ) (lp : List (String × ℚ)) :
    TradeState → List String → Except String TradeState
  | st, [] => .ok st
  | st, sym :: rest =>
    match tradeSym P data sigs ts lp st sym with
    | .error e => .error e
    | .ok st' => tradePass P data sigs ts lp st' rest

/-- One bar of `MultiNextBarExecutionModel.run`: mark pass, trade pass, then
one shared snapshot. -/
def multiStep (P : ExecutionParams) (data : List (String × MarketData))
    (sigs : List (String × Signals)) (symbols : List String)
    (st : WState) (ts : ℕ) : Except String WState :=
  match markPass data ts symbols st.last_prices with
  | .error e => .error e
  | .ok lp =>
    match tradePass P data sigs ts lp ⟨st.cash, st.positions, st.fills⟩ symbols with
    | .error e => .error e
    | .ok t =>
      let equity := compute_equity t.cash t.positions lp
      .ok ⟨t.cash, t.positions, lp, t.fills,
           st.states ++ [⟨t.cash, t.positions, lp, equity⟩]⟩

/-- The time loop of `MultiNextBarExecutionModel.run`. -/
def runIdx (P : ExecutionParams) (data : List (String × MarketData))
    (sigs : List (String × Signals)) (symbols : List String) :
    WState → List ℕ → Except String WState
  | st, [] => .ok st
  | st, ts :: rest =>
    match multiStep P data sigs symbols st ts with
    | .error e => .error e
    | .ok st' => runIdx P data sigs symbols st' rest

/-- `MultiNextBarExecutionModel.run(mmd, sigs, initial_state)`.  An empty
`mmd.data` makes the Python `mmd.index` property raise `StopIteration`. -/
def MultiNextBarExecutionModel.run (P : ExecutionParams) (mmd : MultiMarketData)
    (sigs : List (String × Signals)) (initial_state : PortfolioState) :
    Except String (List Fill × List PortfolioState) :=
  match mmd.data with
  | [] => .error "StopIteration"
  | (_, md0) :: _ =>
    let symbols := mmd.data.map Prod.fst
    let idx := md0.bars.map Prod.fst
    match checkSigs idx sigs symbols with
    | .error e => .error e
    | .ok _ =>
      match runIdx P mmd.data sigs symbols
          ⟨initial_state.cash, initial_state.positions,
           initial_state.last_prices, [], []⟩ idx with
      | .error e => .error e
      | .ok w => .ok (w.fills, w.states)

/-! ## More association-list lemmas, used by the execution proofs -/

theorem aget_aset {α β : Type} [DecidableEq α] (l : List (α × β)) (k : α) (v : β)
    (k' : α) : aget (aset l k v) k' = if k = k' then some v else aget l k' := by
  induction l with
  | nil => by_cases h : k = k' <;> simp [aset, aget, h]
  | cons p t ih =>
    obtain ⟨pk, pv⟩ := p
    by_cases hpk : pk = k
    · subst hpk
      by_cases h : pk = k' <;> simp [aset, aget, h, ih]
    · by_cases h : pk = k'
      · subst h
        have : ¬ k = pk := fun hc => hpk hc.symm
        simp [aset, aget, hpk, this]
      · simp [aset, aget, hpk, h, ih]

theorem aset_aset {α β : Type} [DecidableEq α] (l : List (α × β)) (k : α) (a b : β) :
    aset (aset l k a) k b = aset l k b := by
  induction l with
  | nil => simp [aset]
  | cons p t ih =>
    obtain ⟨pk, pv⟩ := p
    by_cases hpk : pk = k
    · subst hpk
      simp [aset]
    · simp [aset, hpk, ih]

/-- `compute_equity` only reads `lp` through `aget`. -/
theorem compute_equity_ext (c : ℚ) (pos : List (String × ℚ))
    {lp₁ lp₂ : List (String × ℚ)} (h : ∀ k, aget lp₁ k = aget lp₂ k) :
    compute_equity c pos lp₁ = compute_equity c pos lp₂ := by
  unfold compute_equity
  congr 1
  congr 1
  refine List.map_congr_left (fun p _ => ?_)
  rw [h p.1]

/-! ## Characterization of one single-asset bar step -/

/-- Anything a successful `stepBar` guarantees about the next working state:
the last price of the traded symbol is marked to this bar's Close, fills only
grow, and exactly one snapshot is appended, whose fields are copies of the
working state and whose equity is recomputed from those fields. -/
theorem stepBar_ok (P : ExecutionParams) (symbol : String) (tp : List (ℕ × FVal))
    (st : WState) (tb : ℕ × Bar) (st' : WState)
    (h : stepBar P symbol tp st tb = .ok st') :
    st'.last_prices = aset st.last_prices symbol tb.2.Close ∧
    (∃ fl : List Fill, st'.fills = st.fills ++ fl) ∧
    st'.states = st.states ++ [⟨st'.cash, st'.positions, st'.last_prices,
      compute_equity st'.cash st'.positions st'.last_prices⟩] := by
  rw [stepBar] at h
  simp only [] at h
  split at h
  · exact absurd h (by simp)
  · split at h
    · exact absurd h (by simp)
    · split at h
      · exact absurd h (by simp)
      · split at h
        · cases h
          exact ⟨rfl, ⟨_, rfl⟩, rfl⟩
        · cases h
          exact ⟨rfl, ⟨[], by simp⟩, rfl⟩

/-- A successful `stepBar` passed the per-bar checks: any non-NaN target
fraction at this bar's timestamp lies in `[0,1]`, and the bar's Close is not
zero (a zero Close would raise `ZeroDivisionError` in the sizing division). -/
theorem stepBar_ok_checks (P : ExecutionParams) (symbol : String)
    (tp : List (ℕ × FVal)) (st : WState) (tb : ℕ × Bar) (st' : WState)
    (h : stepBar P symbol tp st tb = .ok st') :
    (∀ q, aget tp tb.1 = some (.num q) → 0 ≤ q ∧ q ≤ 1) ∧ tb.2.Close ≠ 0 := by
  rw [stepBar] at h
  simp only [] at h
  split at h
  · exact absurd h (by simp)
  · rename_i desired_raw hget
    split at h
    · exact absurd h (by simp)
    · rename_i hrange
      split at h
      · exact absurd h (by simp)
      · rename_i hclose
        refine ⟨fun q hq => ?_, hclose⟩
        rw [hget] at hq
        cases hq
        push_neg at hrange
        simpa using hrange

/-- Cumulative characterization of the single-asset bar loop: fills only grow
and one snapshot per bar is appended, each internally consistent (equity
recomputed from its own frozen fields) and carrying this bar's Close as the
mark price of the traded symbol. -/
theorem runBars_ok_char (P : ExecutionParams) (symbol : String)
    (tp : List (ℕ × FVal)) :
    ∀ (bars : List (ℕ × Bar)) (st w : WState),
      runBars P symbol tp st bars = .ok w →
      (∃ fl, w.fills = st.fills ++ fl) ∧
      (∃ new, w.states = st.states ++ new ∧ new.length = bars.length ∧
        (∀ snap ∈ new,
          snap.equity = compute_equity snap.cash snap.positions snap.last_prices) ∧
        ∀ pr ∈ new.zip bars,
          pr.1.last_prices = aset st.last_prices symbol pr.2.2.Close) := by
  intro bars
  induction bars with
  | nil =>
    intro st w h
    rw [runBars] at h
    cases h
    exact ⟨⟨[], by simp⟩, ⟨[], by simp⟩⟩
  | cons tb rest ih =>
    intro st w h
    rw [runBars] at h
    split at h
    · exact absurd h (by simp)
    · rename_i st₁ hstep
      obtain ⟨hlp, ⟨fl₁, hfl₁⟩, hstates₁⟩ := stepBar_ok P symbol tp st tb st₁ hstep
      obtain ⟨⟨fl₂, hfl₂⟩, ⟨new', hnew', hlen', hinv', hzip'⟩⟩ := ih st₁ w h
      refine ⟨⟨fl₁ ++ fl₂, by rw [hfl₂, hfl₁, List.append_assoc]⟩, ?_⟩
      refine ⟨⟨st₁.cash, st₁.positions, st₁.last_prices,
        compute_equity st₁.cash st₁.positions st₁.last_prices⟩ :: new', ?_, ?_, ?_, ?_⟩
      · rw [hnew', hstates₁]
        simp
      · simpa using hlen'
      · intro snap hsnap
        rcases List.mem_cons.mp hsnap with h | h
        · subst h; rfl
        · exact hinv' snap h
      · intro pr hpr
        rcases List.mem_cons.mp (by simpa [List.zip_cons_cons] using hpr) with h | h
        · subst h
          simpa using hlp
        · have := hzip' pr h
          rw [this, hlp, aset_aset]

/-- C3, single-asset half, derived form: on any successful run every snapshot's
equity equals `compute_equity` of its own frozen fields, and the snapshot of
bar `i` carries bar `i`'s Close as the mark price of the traded symbol. -/
theorem single_run_equity (P : ExecutionParams) (md : MarketData) (sig : Signals)
    (st0 : PortfolioState) (f : List Fill) (s : List PortfolioState)
    (h : NextBarExecutionModel.run P md sig st0 = .ok (f, s)) :
    (∀ snap ∈ s, snap.equity = compute_equity snap.cash snap.positions snap.last_prices) ∧
    s.length = md.bars.length ∧
    ∀ pr ∈ s.zip md.bars,
      pr.1.last_prices = aset st0.last_prices md.symbol pr.2.2.Close := by
  rw [NextBarExecutionModel.run] at h
  split at h
  · exact absurd h (by simp)
  · split at h
    · exact absurd h (by simp)
    · rename_i w hrun
      cases h
      obtain ⟨_, ⟨new, hnew, hlen, hinv, hzip⟩⟩ := runBars_ok_char P md.symbol
        sig.target_position md.bars _ w hrun
      simp only [List.nil_append] at hnew
      subst hnew
      exact ⟨hinv, hlen, hzip⟩

/-! ## Characterization of the multi-asset passes -/

/-- A successful `tradeSym` leaves the fill list grown by zero or one fill. -/
theorem tradeSym_fills (P : ExecutionParams) (data : List (String × MarketData))
    (sigs : List (String × Signals)) (ts : ℕ) (lp : List (String × ℚ))
    (st : TradeState) (sym : String) (st' : TradeState)
    (h : tradeSym P data sigs ts lp st sym = .ok st') :
    ∃ fl, st'.fills = st.fills ++ fl := by
  rw [tradeSym] at h
  simp only [] at h
  split at h
  · exact Except.noConfusion h
  · split at h
    · exact Except.noConfusion h
    · split at h
      · exact Except.noConfusion h
      · split at h
        · exact Except.noConfusion h
        · split at h
          · exact Except.noConfusion h
          · split at h
            · exact Except.noConfusion h
            · split at h
              · cases h; exact ⟨[], by simp⟩
              · split at h
                · cases h; exact ⟨[], by simp⟩
                · cases h
                  exact ⟨_, rfl⟩

/-- `tradePass` only appends to the fill list. -/
theorem tradePass_fills (P : ExecutionParams) (data : List (String × MarketData))
    (sigs : List (String × Signals)) (ts : ℕ) (lp : List (String × ℚ)) :
    ∀ (syms : List String) (st st' : TradeState),
      tradePass P data sigs ts lp st syms = .ok st' →
      ∃ fl, st'.fills = st.fills ++ fl := by
  intro syms
  induction syms with
  | nil =>
    intro st st' h
    rw [tradePass] at h
    cases h
    exact ⟨[], by simp⟩
  | cons sym rest ih =>
    intro st st' h
    rw [tradePass] at h
    split at h
    · exact absurd h (by simp)
    · rename_i st₁ hsym
      obtain ⟨fl₁, h₁⟩ := tradeSym_fills P data sigs ts lp st sym st₁ hsym
      obtain ⟨fl₂, h₂⟩ := ih st₁ st' h
      exact ⟨fl₁ ++ fl₂, by rw [h₂, h₁, List.append_assoc]⟩

/-- A successful `multiStep` appends exactly one snapshot, internally
consistent, and only appends fills. -/
theorem multiStep_ok (P : ExecutionParams) (data : List (String × MarketData))
    (sigs : List (String × Signals)) (symbols : List String)
    (st : WState) (ts : ℕ) (st' : WState)
    (h : multiStep P data sigs symbols st ts = .ok st') :
    (∃ fl, st'.fills = st.fills ++ fl) ∧
    st'.states = st.states ++ [⟨st'.cash, st'.positions, st'.last_prices,
      compute_equity st'.cash st'.positions st'.last_prices⟩] := by
  rw [multiStep] at h
  split at h
  · exact absurd h (by simp)
  · rename_i lp hmark
    split at h
    · exact absurd h (by simp)
    · rename_i t htrade
      cases h
      refine ⟨?_, rfl⟩
      simpa using tradePass_fills P data sigs ts lp _ _ t htrade

/-- Cumulative characterization of the multi-asset time loop. -/
theorem runIdx_ok_char (P : ExecutionParams) (data : List (String × MarketData))
    (sigs : List (String × Signals)) (symbols : List String) :
    ∀ (idx : List ℕ) (st w : WState),
      runIdx P data sigs symbols st idx = .ok w →
      (∃ fl, w.fills = st.fills ++ fl) ∧
      (∃ new, w.states = st.states ++ new ∧ new.length = idx.length ∧
        ∀ snap ∈ new,
          snap.equity = compute_equity snap.cash snap.positions snap.last_prices) := by
  intro idx
  induction idx with
  | nil =>
    intro st w h
    rw [runIdx] at h
    cases h
    exact ⟨⟨[], by simp⟩, ⟨[], by simp⟩⟩
  | cons ts rest ih =>
    intro st w h
    rw [runIdx] at h
    split at h
    · exact absurd h (by simp)
    · rename_i st₁ hstep
      obtain ⟨⟨fl₁, hfl₁⟩, hstates₁⟩ := multiStep_ok P data sigs symbols st ts st₁ hstep
      obtain ⟨⟨fl₂, hfl₂⟩, ⟨new', hnew', hlen', hinv'⟩⟩ := ih st₁ w h
      refine ⟨⟨fl₁ ++ fl₂, by rw [hfl₂, hfl₁, List.append_assoc]⟩, ?_⟩
      refine ⟨⟨st₁.cash, st₁.positions, st₁.last_prices,
        compute_equity st₁.cash st₁.positions st₁.last_prices⟩ :: new', ?_, ?_, ?_⟩
      · rw [hnew', hstates₁]
        simp
      · simpa using hlen'
      · intro snap hsnap
        rcases List.mem_cons.mp hsnap with h | h
        · subst h; rfl
        · exact hinv' snap h

/-- C3, multi-asset half, derived form. -/
theorem multi_run_equity (P : ExecutionParams) (mmd : MultiMarketData)
    (sigs : List (String × Signals)) (st0 : PortfolioState)
    (f : List Fill) (s : List PortfolioState)
    (h : MultiNextBarExecutionModel.run P mmd sigs st0 = .ok (f, s)) :
    (∀ snap ∈ s, snap.equity = compute_equity snap.cash snap.positions snap.last_prices) ∧
    s.length = mmd.index.length := by
  rw [MultiNextBarExecutionModel.run] at h
  split at h
  · exact Except.noConfusion h
  · rename_i hdata a md0 tl
    simp only [] at h
    split at h
    · exact absurd h (by simp)
    · split at h
      · exact absurd h (by simp)
      · rename_i w hrun
        cases h
        obtain ⟨_, ⟨new, hnew, hlen, hinv⟩⟩ := runIdx_ok_char P mmd.data sigs
          (mmd.data.map Prod.fst) _ _ w hrun
        simp only [List.nil_append] at hnew
        subst hnew
        refine ⟨hinv, ?_⟩
        rw [hlen]
        simp [MultiMarketData.index, tl]

/-- C3: in every successful run of either execution model, every emitted
snapshot satisfies `equity = cash + Σ qty × mark price` (the `compute_equity`
of its own frozen fields), and in the single-asset model the snapshot of bar
`i` marks the traded symbol at bar `i`'s Close — the Close observed up to and
including that bar. -/
theorem C3_equity_identity :
    (∀ (P : ExecutionParams) (md : MarketData) (sig : Signals)
       (st0 : PortfolioState) (f : List Fill) (s : List PortfolioState),
       NextBarExecutionModel.run P md sig st0 = .ok (f, s) →
       (∀ snap ∈ s,
          snap.equity = compute_equity snap.cash snap.positions snap.last_prices) ∧
       ∀ pr ∈ s.zip md.bars,
         pr.1.last_prices = aset st0.last_prices md.symbol pr.2.2.Close) ∧
    (∀ (P : ExecutionParams) (mmd : MultiMarketData)
       (sigs : List (String × Signals)) (st0 : PortfolioState)
       (f : List Fill) (s : List PortfolioState),
       MultiNextBarExecutionModel.run P mmd sigs st0 = .ok (f, s) →
       ∀ snap ∈ s,
         snap.equity = compute_equity snap.cash snap.positions snap.last_prices) := by
  constructor
  · intro P md sig st0 f s h
    obtain ⟨h1, _, h3⟩ := single_run_equity P md sig st0 f s h
    exact ⟨h1, h3⟩
  · intro P mmd sigs st0 f s h
    exact (multi_run_equity P mmd sigs st0 f s h).1

/-! ## Fail-fast alignment errors (claim C6) -/

/-- A symbol in the list with no signal entry makes `checkSigs` fail. -/
theorem checkSigs_missing (idx : List ℕ) (sigs : List (String × Signals)) :
    ∀ (syms : List String) (sym : String), sym ∈ syms → aget sigs sym = none →
      ∃ e, checkSigs idx sigs syms = .error e := by
  intro syms
  induction syms with
  | nil => intro sym h; simp at h
  | cons a rest ih =>
    intro sym hmem hnone
    rw [checkSigs]
    cases hg : aget sigs a with
    | none => exact ⟨_, rfl⟩
    | some sg =>
      rcases List.mem_cons.mp hmem with rfl | hmem'
      · rw [hg] at hnone
        cases hnone
      · by_cases hidx : sg.target_position.map Prod.fst = idx
        · obtain ⟨e, he⟩ := ih sym hmem' hnone
          exact ⟨e, by simp only [hidx, if_true]; exact he⟩
        · exact ⟨"Signals index must match bars index", by simp only [hidx, if_false]⟩

/-- A symbol whose signal index differs from the shared bar index makes
`checkSigs` fail. -/
theorem checkSigs_misaligned (idx : List ℕ) (sigs : List (String × Signals)) :
    ∀ (syms : List String) (sym : String) (sg : Signals), sym ∈ syms →
      aget sigs sym = some sg → sg.target_position.map Prod.fst ≠ idx →
      ∃ e, checkSigs idx sigs syms = .error e := by
  intro syms
  induction syms with
  | nil => intro sym sg h; simp at h
  | cons a rest ih =>
    intro sym sg hmem hsome hne
    rw [checkSigs]
    cases hg : aget sigs a with
    | none => exact ⟨_, rfl⟩
    | some sg' =>
      rcases List.mem_cons.mp hmem with rfl | hmem'
      · rw [hg] at hsome
        cases hsome
        simp only [hne, if_false]
        exact ⟨_, rfl⟩
      · by_cases hidx : sg'.target_position.map Prod.fst = idx
        · obtain ⟨e, he⟩ := ih sym sg hmem' hsome hne
          exact ⟨e, by simp only [hidx, if_true]; exact he⟩
        · exact ⟨"Signals index must match bars index", by simp only [hidx, if_false]⟩

/-- C6: alignment errors abort before any bar is processed.  A single-asset
run whose target index differs from the bar index returns the alignment error
(and hence no fills and no snapshots); a multi-asset run with a missing signal
series, or with a signal series misaligned with the shared index, returns an
error as well. -/
theorem C6_alignment_fail_fast :
    (∀ (P : ExecutionParams) (md : MarketData) (sig : Signals)
       (st0 : PortfolioState),
       sig.target_position.map Prod.fst ≠ md.bars.map Prod.fst →
       NextBarExecutionModel.run P md sig st0
         = .error "Signals.target_position.index must match MarketData.bars.index") ∧
    (∀ (P : ExecutionParams) (mmd : MultiMarketData)
       (sigs : List (String × Signals)) (st0 : PortfolioState) (sym : String),
       sym ∈ mmd.symbols → aget sigs sym = none →
       ∃ e, MultiNextBarExecutionModel.run P mmd sigs st0 = .error e) ∧
    (∀ (P : ExecutionParams) (mmd : MultiMarketData)
       (sigs : List (String × Signals)) (st0 : PortfolioState)
       (sym : String) (sg : Signals),
       sym ∈ mmd.symbols → aget sigs sym = some sg →
       sg.target_position.map Prod.fst ≠ mmd.index →
       ∃ e, MultiNextBarExecutionModel.run P mmd sigs st0 = .error e) := by
  refine ⟨?_, ?_, ?_⟩
  · intro P md sig st0 hne
    rw [NextBarExecutionModel.run]
    simp [hne]
  · intro P mmd sigs st0 sym hmem hnone
    rw [MultiNextBarExecutionModel.run]
    rcases hd : mmd.data with _ | ⟨⟨s0, md0⟩, tl⟩
    · exact ⟨_, rfl⟩
    · have hmem' : sym ∈ mmd.data.map Prod.fst := hmem
      rw [hd] at hmem'
      obtain ⟨e, he⟩ := checkSigs_missing (md0.bars.map Prod.fst) sigs
        (((s0, md0) :: tl).map Prod.fst) sym hmem' hnone
      refine ⟨e, ?_⟩
      simp only [hd] at he ⊢
      rw [he]
  · intro P mmd sigs st0 sym sg hmem hsome hne
    rw [MultiNextBarExecutionModel.run]
    rcases hd : mmd.data with _ | ⟨⟨s0, md0⟩, tl⟩
    · exact ⟨_, rfl⟩
    · have hmem' : sym ∈ mmd.data.map Prod.fst := hmem
      rw [hd] at hmem'
      have hne' : sg.target_position.map Prod.fst ≠ md0.bars.map Prod.fst := by
        have : mmd.index = md0.bars.map Prod.fst := by
          rw [MultiMarketData.index, hd]
        rw [← this]
        exact hne
      obtain ⟨e, he⟩ := checkSigs_misaligned (md0.bars.map Prod.fst) sigs
        (((s0, md0) :: tl).map Prod.fst) sym sg hmem' hsome hne'
      refine ⟨e, ?_⟩
      simp only [hd] at he ⊢
      rw [he]

/-! ## Domain-range checks (claim C4) -/

/-- Every bar of a successful single-asset loop passed its checks. -/
theorem runBars_ok_checks (P : ExecutionParams) (symbol : String)
    (tp : List (ℕ × FVal)) :
    ∀ (bars : List (ℕ × Bar)) (st w : WState),
      runBars P symbol tp st bars = .ok w →
      ∀ tb ∈ bars,
        (∀ q, aget tp tb.1 = some (.num q) → 0 ≤ q ∧ q ≤ 1) ∧ tb.2.Close ≠ 0 := by
  intro bars
  induction bars with
  | nil => intro st w _ tb htb; simp at htb
  | cons tb₀ rest ih =>
    intro st w h tb htb
    rw [runBars] at h
    split at h
    · exact Except.noConfusion h
    · rename_i st₁ hstep
      rcases List.mem_cons.mp htb with rfl | htb'
      · exact stepBar_ok_checks P symbol tp st tb st₁ hstep
      · exact ih st₁ w h tb htb'

/-- A successful `tradeSym` passed the fraction-range check and the positive
Close check for the symbol's row at this timestamp. -/
theorem tradeSym_ok_checks (P : ExecutionParams) (data : List (String × MarketData))
    (sigs : List (String × Signals)) (ts : ℕ) (lp : List (String × ℚ))
    (st : TradeState) (sym : String) (st' : TradeState)
    (h : tradeSym P data sigs ts lp st sym = .ok st') :
    ∀ md, aget data sym = some md → ∀ row, aget md.bars ts = some row →
      0 < row.Close ∧
      ∀ sg, aget sigs sym = some sg →
        ∀ q, aget sg.target_position ts = some (.num q) → 0 ≤ q ∧ q ≤ 1 := by
  rw [tradeSym] at h
  simp only [] at h
  split at h
  · exact Except.noConfusion h
  · rename_i md₀ hmd₀
    split at h
    · exact Except.noConfusion h
    · rename_i row₀ hrow₀
      split at h
      · exact Except.noConfusion h
      · rename_i sg₀ hsg₀
        split at h
        · exact Except.noConfusion h
        · rename_i raw₀ hraw₀
          split at h
          · exact Except.noConfusion h
          · rename_i hrange
            split at h
            · exact Except.noConfusion h
            · rename_i hclose
              intro md hmd row hrow
              rw [hmd₀] at hmd
              cases hmd
              rw [hrow₀] at hrow
              cases hrow
              push_neg at hclose
              refine ⟨hclose, fun sg hsg q hq => ?_⟩
              rw [hsg₀] at hsg
              cases hsg
              rw [hraw₀] at hq
              cases hq
              push_neg at hrange
              simpa using hrange

/-- Every symbol of a successful trade pass passed its checks. -/
theorem tradePass_ok_checks (P : ExecutionParams)
    (data : List (String × MarketData)) (sigs : List (String × Signals))
    (ts : ℕ) (lp : List (String × ℚ)) :
    ∀ (syms : List String) (st st' : TradeState),
      tradePass P data sigs ts lp st syms = .ok st' →
      ∀ sym ∈ syms, ∀ md, aget data sym = some md →
        ∀ row, aget md.bars ts = some row →
          0 < row.Close ∧
          ∀ sg, aget sigs sym = some sg →
            ∀ q, aget sg.target_position ts = some (.num q) → 0 ≤ q ∧ q ≤ 1 := by
  intro syms
  induction syms with
  | nil => intro st st' _ sym hsym; simp at hsym
  | cons a rest ih =>
    intro st st' h sym hsym
    rw [tradePass] at h
    split at h
    · exact Except.noConfusion h
    · rename_i st₁ ha
      rcases List.mem_cons.mp hsym with rfl | hsym'
      · exact tradeSym_ok_checks P data sigs ts lp st sym st₁ ha
      · exact ih st₁ st' h sym hsym'

/-- Every timestamp of a successful multi-asset time loop passed every
symbol's checks. -/
theorem runIdx_ok_checks (P : ExecutionParams)
    (data : List (String × MarketData)) (sigs : List (String × Signals))
    (symbols : List String) :
    ∀ (idx : List ℕ) (st w : WState),
      runIdx P data sigs symbols st idx = .ok w →
      ∀ ts ∈ idx, ∀ sym ∈ symbols, ∀ md, aget data sym = some md →
        ∀ row, aget md.bars ts = some row →
          0 < row.Close ∧
          ∀ sg, aget sigs sym = some sg →
            ∀ q, aget sg.target_position ts = some (.num q) → 0 ≤ q ∧ q ≤ 1 := by
  intro idx
  induction idx with
  | nil => intro st w _ ts hts; simp at hts
  | cons t rest ih =>
    intro st w h ts hts
    rw [runIdx] at h
    split at h
    · exact Except.noConfusion h
    · rename_i st₁ hstep
      rcases List.mem_cons.mp hts with rfl | hts'
      · rw [multiStep] at hstep
        split at hstep
        · exact Except.noConfusion hstep
        · rename_i lp hmark
          split at hstep
          · exact Except.noConfusion hstep
          · rename_i tr htrade
            exact tradePass_ok_checks P data sigs ts lp symbols _ tr htrade
      · exact ih st₁ w h ts hts'

/-- C4, counterexample to the claim as stated: in the single-asset model a
NEGATIVE Close price is not fatal.  A one-bar run with Close = -1 and target
fraction 0 completes successfully (no fill, one snapshot), whereas the claim
says a non-positive Close during sizing is fatal in both models. -/
theorem C4_counterexample :
    NextBarExecutionModel.run {} ⟨[(0, ⟨1, 1, 1, -1, 0⟩)], "S"⟩
      ⟨[(0, FVal.num 0)]⟩ ⟨100, [], [], 0⟩
      = .ok ([], [⟨100, [], [("S", -1)], 100⟩]) := by
  rw [NextBarExecutionModel.run]
  norm_num [runBars, stepBar, compute_equity, aget, agetD, aset, qabs]

/-- C4 (amended): a non-NaN target fraction outside `[0,1]` is fatal in both
models (a successful run implies every bar's non-NaN fraction was in range);
a non-positive Close during sizing is fatal in the multi-asset model; in the
single-asset model only a ZERO Close is fatal (Python float division by zero),
a negative Close passes sizing unchecked. -/
theorem C4_domain_range_errors :
    (∀ (P : ExecutionParams) (md : MarketData) (sig : Signals)
       (st0 : PortfolioState) (f : List Fill) (s : List PortfolioState),
       NextBarExecutionModel.run P md sig st0 = .ok (f, s) →
       ∀ tb ∈ md.bars,
         (∀ q, aget sig.target_position tb.1 = some (.num q) → 0 ≤ q ∧ q ≤ 1) ∧
         tb.2.Close ≠ 0) ∧
    (∀ (P : ExecutionParams) (mmd : MultiMarketData)
       (sigs : List (String × Signals)) (st0 : PortfolioState)
       (f : List Fill) (s : List PortfolioState),
       MultiNextBarExecutionModel.run P mmd sigs st0 = .ok (f, s) →
       ∀ ts ∈ mmd.index, ∀ sym ∈ mmd.symbols, ∀ md, aget mmd.data sym = some md →
         ∀ row, aget md.bars ts = some row →
           0 < row.Close ∧
           ∀ sg, aget sigs sym = some sg →
             ∀ q, aget sg.target_position ts = some (.num q) → 0 ≤ q ∧ q ≤ 1) := by
  constructor
  · intro P md sig st0 f s h
    rw [NextBarExecutionModel.run] at h
    split at h
    · exact Except.noConfusion h
    · split at h
      · exact Except.noConfusion h
      · rename_i w hrun
        exact runBars_ok_checks P md.symbol sig.target_position md.bars _ w hrun
  · intro P mmd sigs st0 f s h
    rw [MultiNextBarExecutionModel.run] at h
    split at h
    · exact Except.noConfusion h
    · rename_i hdd a md0 tl
      simp only [] at h
      split at h
      · exact Except.noConfusion h
      · split at h
        · exact Except.noConfusion h
        · rename_i w hrun
          intro ts hts
          have hts' : ts ∈ a.bars.map Prod.fst := by
            have : mmd.index = a.bars.map Prod.fst := by
              rw [MultiMarketData.index, tl]
            rw [← this]
            exact hts
          exact runIdx_ok_checks P mmd.data sigs (mmd.data.map Prod.fst)
            (a.bars.map Prod.fst) _ w hrun ts hts'

/-! ## The multi-asset cash invariant (claim C1) -/

theorem execPriceOf_nonneg (P : ExecutionParams) (row : Bar) (delta0 : ℚ)
    (hOpen : 0 ≤ row.Open) (hClose : 0 ≤ row.Close)
    (hslip0 : 0 ≤ P.slippage_bps) (hslip1 : P.slippage_bps ≤ 10000) :
    0 ≤ execPriceOf P row delta0 := by
  rw [execPriceOf]
  have hraw : 0 ≤ fillColPrice P.fill_price row := by
    cases P.fill_price <;> simpa [fillColPrice]
  have h0 : (0:ℚ) ≤ 1 + P.slippage_bps / 10000 := by positivity
  have h1 : (0:ℚ) ≤ 1 - P.slippage_bps / 10000 := by
    have : P.slippage_bps / 10000 ≤ 1 := by
      rw [div_le_one (by norm_num : (0:ℚ) < 10000)]
      exact hslip1
    linarith
  by_cases hd : 0 < delta0
  · simp only [hd, if_true]
    exact mul_nonneg hraw h0
  · simp only [hd, if_false]
    exact mul_nonneg hraw h1

theorem clampBuy_sell (P : ExecutionParams) (cash exec_price delta0 : ℚ)
    (h : ¬ 0 < delta0) : clampBuy P cash exec_price delta0 = delta0 := by
  rw [clampBuy]
  simp [h]

theorem clampBuy_buy_facts (P : ExecutionParams) (cash exec_price delta0 : ℚ)
    (h : 0 < delta0) (hcash : 0 ≤ cash) :
    clampBuy P cash exec_price delta0 = 0 ∨
      (0 ≤ clampBuy P cash exec_price delta0 ∧
       clampBuy P cash exec_price delta0 * (exec_price * (1 + P.fee_bps / 10000))
         ≤ cash) := by
  rw [clampBuy]
  simp only [h, if_true]
  set denom := exec_price * (1 + P.fee_bps / 10000) with hdenom
  by_cases hd : 0 < denom
  · simp only [hd, if_true]
    have hmbq0 : 0 ≤ cash / denom := div_nonneg hcash hd.le
    have hneg : ¬ cash / denom < 0 := not_lt.mpr hmbq0
    simp only [hneg, if_false]
    by_cases hlt : cash / denom < delta0
    · simp only [hlt, if_true]
      right
      refine ⟨hmbq0, ?_⟩
      rw [div_mul_eq_mul_div, mul_div_assoc, div_self hd.ne', mul_one]
    · simp only [hlt, if_false]
      right
      push_neg at hlt
      refine ⟨h.le, ?_⟩
      calc delta0 * denom ≤ (cash / denom) * denom :=
            mul_le_mul_of_nonneg_right hlt hd.le
        _ = cash := by field_simp
  · simp only [hd, if_false]
    have : ¬ (0:ℚ) < 0 := lt_irrefl 0
    simp only [lt_irrefl, if_false]
    by_cases hlt : (0:ℚ) < delta0
    · simp [h]
    · simp [h] at hlt

theorem settleTrade_cash_nonneg (P : ExecutionParams) (sym : String) (ts : ℕ)
    (st : TradeState) (cur_qty delta exec_price : ℚ)
    (hcash : 0 ≤ st.cash) (hexec : 0 ≤ exec_price)
    (hfee0 : 0 ≤ P.fee_bps) (hfee1 : P.fee_bps ≤ 10000)
    (hbuy : 0 < delta → delta * (exec_price * (1 + P.fee_bps / 10000)) ≤ st.cash) :
    0 ≤ (settleTrade P sym ts st cur_qty delta exec_price).cash := by
  rw [settleTrade]
  simp only []
  have hfr0 : (0:ℚ) ≤ P.fee_bps / 10000 := by positivity
  have hfr1 : P.fee_bps / 10000 ≤ 1 := by
    rw [div_le_one (by norm_num : (0:ℚ) < 10000)]
    exact hfee1
  have hcash1 : 0 ≤ st.cash - delta * exec_price
      - qabs delta * exec_price * (P.fee_bps / 10000) := by
    by_cases hd : 0 < delta
    · have habs : qabs delta = delta := by
        rw [qabs_eq_abs, abs_of_pos hd]
      rw [habs]
      have := hbuy hd
      nlinarith
    · push_neg at hd
      have habs : qabs delta = -delta := by
        rw [qabs_eq_abs, abs_of_nonpos hd]
      rw [habs]
      have h1 : 0 ≤ (-delta) * exec_price := mul_nonneg (by linarith) hexec
      nlinarith
  by_cases hsnap : qabs (st.cash - delta * exec_price
      - qabs delta * exec_price * (P.fee_bps / 10000)) < P.eps
  · simp only [hsnap, if_true]
    exact le_refl 0
  · simp only [hsnap, if_false]
    exact hcash1

/-- The settled trade of the multi-asset model (exec price from the fill
column, clamped delta) keeps cash nonnegative. -/
theorem tradeBranch_cash (P : ExecutionParams) (sym : String) (ts : ℕ)
    (st : TradeState) (row : Bar) (cur_qty delta0 : ℚ)
    (hcash : 0 ≤ st.cash)
    (hOpen : 0 ≤ row.Open) (hClose : 0 ≤ row.Close)
    (hfee0 : 0 ≤ P.fee_bps) (hfee1 : P.fee_bps ≤ 10000)
    (hslip0 : 0 ≤ P.slippage_bps) (hslip1 : P.slippage_bps ≤ 10000) :
    0 ≤ (settleTrade P sym ts st cur_qty
      (clampBuy P st.cash (execPriceOf P row delta0) delta0)
      (execPriceOf P row delta0)).cash := by
  have hexec := execPriceOf_nonneg P row delta0 hOpen hClose hslip0 hslip1
  refine settleTrade_cash_nonneg P sym ts st _ _ _ hcash hexec hfee0 hfee1
    (fun hpos => ?_)
  by_cases hb : 0 < delta0
  · rcases clampBuy_buy_facts P st.cash (execPriceOf P row delta0) delta0 hb hcash
      with hz | ⟨_, hle⟩
    · rw [hz] at hpos
      exact absurd hpos (lt_irrefl 0)
    · exact hle
  · rw [clampBuy_sell P st.cash _ _ hb] at hpos
    exact absurd hpos hb

/-- A successful `tradeSym` keeps the shared cash pool nonnegative, given
nonnegative bar prices and fee/slippage rates at most 100 %. -/
theorem tradeSym_cash (P : ExecutionParams) (data : List (String × MarketData))
    (sigs : List (String × Signals)) (ts : ℕ) (lp : List (String × ℚ))
    (st : TradeState) (sym : String) (st' : TradeState)
    (h : tradeSym P data sigs ts lp st sym = .ok st')
    (hcash : 0 ≤ st.cash)
    (hfee0 : 0 ≤ P.fee_bps) (hfee1 : P.fee_bps ≤ 10000)
    (hslip0 : 0 ≤ P.slippage_bps) (hslip1 : P.slippage_bps ≤ 10000)
    (hpx : ∀ md, aget data sym = some md →
      ∀ tb ∈ md.bars, 0 ≤ tb.2.Open ∧ 0 ≤ tb.2.Close) :
    0 ≤ st'.cash := by
  rw [tradeSym] at h
  simp only [] at h
  split at h
  · exact Except.noConfusion h
  · rename_i md₀ hmd₀
    split at h
    · exact Except.noConfusion h
    · rename_i row₀ hrow₀
      split at h
      · exact Except.noConfusion h
      · rename_i sg₀ hsg₀
        split at h
        · exact Except.noConfusion h
        · rename_i raw₀ hraw₀
          split at h
          · exact Except.noConfusion h
          · split at h
            · exact Except.noConfusion h
            · split at h
              · cases h; exact hcash
              · rename_i hd0
                split at h
                · cases h; exact hcash
                · rename_i hdelta
                  cases h
                  obtain ⟨hOpen, hClose⟩ :=
                    hpx md₀ hmd₀ (ts, row₀) (mem_of_aget hrow₀)
                  exact tradeBranch_cash P sym ts st row₀ _ _ hcash
                    (by simpa using hOpen) (by simpa using hClose)
                    hfee0 hfee1 hslip0 hslip1

theorem tradePass_cash (P : ExecutionParams) (data : List (String × MarketData))
    (sigs : List (String × Signals)) (ts : ℕ) (lp : List (String × ℚ))
    (hfee0 : 0 ≤ P.fee_bps) (hfee1 : P.fee_bps ≤ 10000)
    (hslip0 : 0 ≤ P.slippage_bps) (hslip1 : P.slippage_bps ≤ 10000)
    (hpx : ∀ sym md, aget data sym = some md →
      ∀ tb ∈ md.bars, 0 ≤ tb.2.Open ∧ 0 ≤ tb.2.Close) :
    ∀ (syms : List String) (st st' : TradeState),
      tradePass P data sigs ts lp st syms = .ok st' → 0 ≤ st.cash →
      0 ≤ st'.cash := by
  intro syms
  induction syms with
  | nil =>
    intro st st' h hcash
    rw [tradePass] at h
    cases h
    exact hcash
  | cons a rest ih =>
    intro st st' h hcash
    rw [tradePass] at h
    split at h
    · exact Except.noConfusion h
    · rename_i st₁ ha
      exact ih st₁ st' h
        (tradeSym_cash P data sigs ts lp st a st₁ ha hcash
          hfee0 hfee1 hslip0 hslip1 (hpx a))

theorem runIdx_cash (P : ExecutionParams) (data : List (String × MarketData))
    (sigs : List (String × Signals)) (symbols : List String)
    (hfee0 : 0 ≤ P.fee_bps) (hfee1 : P.fee_bps ≤ 10000)
    (hslip0 : 0 ≤ P.slippage_bps) (hslip1 : P.slippage_bps ≤ 10000)
    (hpx : ∀ sym md, aget data sym = some md →
      ∀ tb ∈ md.bars, 0 ≤ tb.2.Open ∧ 0 ≤ tb.2.Close) :
    ∀ (idx : List ℕ) (st w : WState),
      runIdx P data sigs symbols st idx = .ok w → 0 ≤ st.cash →
      0 ≤ w.cash ∧ ∀ snap ∈ w.states, snap ∈ st.states ∨ 0 ≤ snap.cash := by
  intro idx
  induction idx with
  | nil =>
    intro st w h hcash
    rw [runIdx] at h
    cases h
    exact ⟨hcash, fun snap hsnap => Or.inl hsnap⟩
  | cons t rest ih =>
    intro st w h hcash
    rw [runIdx] at h
    split at h
    · exact Except.noConfusion h
    · rename_i st₁ hstep
      rw [multiStep] at hstep
      split at hstep
      · exact Except.noConfusion hstep
      · rename_i lp hmark
        split at hstep
        · exact Except.noConfusion hstep
        · rename_i tr htrade
          have htr : 0 ≤ tr.cash :=
            tradePass_cash P data sigs t lp hfee0 hfee1 hslip0 hslip1 hpx
              symbols _ tr htrade hcash
          cases hstep
          obtain ⟨hw, hsnaps⟩ := ih _ w h htr
          refine ⟨hw, fun snap hsnap => ?_⟩
          rcases hsnaps snap hsnap with hold | hnew
          · rcases List.mem_append.mp hold with h1 | h2
            · exact Or.inl h1
            · simp only [List.mem_singleton] at h2
              subst h2
              exact Or.inr htr
          · exact Or.inr hnew

/-- C1 (amended by the counterexample: fee and slippage rates at most 100 %
and nonnegative bar prices, in addition to the interface contracts
`initial cash ≥ 0` and `eps > 0`): in every successful multi-asset run,
every emitted snapshot's cash is at least `-eps`.  Internally the buy-side
clamp keeps the pool at `≥ 0` throughout; sells only add cash when prices are
nonnegative and the fee rate is below 100 %. -/
theorem C1_multi_cash_above_neg_eps (P : ExecutionParams)
    (mmd : MultiMarketData) (sigs : List (String × Signals))
    (st0 : PortfolioState) (f : List Fill) (s : List PortfolioState)
    (h : MultiNextBarExecutionModel.run P mmd sigs st0 = .ok (f, s))
    (hcash0 : 0 ≤ st0.cash) (heps : 0 ≤ P.eps)
    (hfee0 : 0 ≤ P.fee_bps) (hfee1 : P.fee_bps ≤ 10000)
    (hslip0 : 0 ≤ P.slippage_bps) (hslip1 : P.slippage_bps ≤ 10000)
    (hpx : ∀ p ∈ mmd.data, ∀ tb ∈ p.2.bars, 0 ≤ tb.2.Open ∧ 0 ≤ tb.2.Close) :
    ∀ snap ∈ s, -P.eps ≤ snap.cash := by
  have hpx' : ∀ sym md, aget mmd.data sym = some md →
      ∀ tb ∈ md.bars, 0 ≤ tb.2.Open ∧ 0 ≤ tb.2.Close :=
    fun sym md hmd => hpx (sym, md) (mem_of_aget hmd)
  rw [MultiNextBarExecutionModel.run] at h
  split at h
  · exact Except.noConfusion h
  · rename_i hdd a md0 tl
    simp only [] at h
    split at h
    · exact Except.noConfusion h
    · split at h
      · exact Except.noConfusion h
      · rename_i w hrun
        cases h
        obtain ⟨_, hsnaps⟩ := runIdx_cash P mmd.data sigs (mmd.data.map Prod.fst)
          hfee0 hfee1 hslip0 hslip1 hpx' (a.bars.map Prod.fst) _ w hrun
          (by simpa using hcash0)
        intro snap hsnap
        rcases hsnaps snap hsnap with hold | hnew
        · simp at hold
        · linarith

/-- C1, counterexample to the claim as stated: with a 200 % fee rate
(`fee_bps = 20000`, allowed by the interface contract `fee_bps ≥ 0`), selling
one share at price 100 earns 100 but pays a 200 fee, driving the shared cash
pool to −100 in the emitted snapshot — far below `-eps`.  "Sells only add
cash" fails for fee rates above 100 %, so the unconditional claim is false. -/
theorem C1_counterexample :
    ∃ f s, MultiNextBarExecutionModel.run ⟨20000, 0, .openPx, 1/1000000000000⟩
        ⟨[("A", ⟨[(0, ⟨100, 100, 100, 100, 1⟩)], "A"⟩)]⟩
        [("A", ⟨[(0, FVal.num 0)]⟩)] ⟨0, [("A", 1)], [], 0⟩ = .ok (f, s) ∧
      ∃ snap ∈ s, snap.cash < -(1/1000000000000 : ℚ) := by
  refine ⟨[⟨"A", 0, 100, -1, 200⟩], [⟨-100, [], [("A", 100)], -100⟩], ?_,
    ⟨-100, [], [("A", 100)], -100⟩, List.mem_singleton.mpr rfl, by norm_num⟩
  rw [MultiNextBarExecutionModel.run]
  norm_num [checkSigs, runIdx, multiStep, markPass, tradePass, tradeSym,
    execPriceOf, clampBuy, settleTrade, compute_equity, aget, agetD, aset, adel,
    qabs, fillColPrice]

/-- C1 witness: the amended cash bound applied to a concrete one-bar
single-symbol run with the default parameters, at its single snapshot. -/
theorem C1_witness :
    -((1:ℚ)/1000000000000)
      ≤ (⟨100, [], [("A", 100)], 100⟩ : PortfolioState).cash :=
  C1_multi_cash_above_neg_eps ⟨1, 1, .openPx, 1/1000000000000⟩
    ⟨[("A", ⟨[(0, ⟨100, 100, 100, 100, 1⟩)], "A"⟩)]⟩
    [("A", ⟨[(0, FVal.num 0)]⟩)] ⟨100, [], [], 0⟩
    [] [⟨100, [], [("A", 100)], 100⟩]
    (by
      rw [MultiNextBarExecutionModel.run]
      norm_num [checkSigs, runIdx, multiStep, markPass, tradePass, tradeSym,
        execPriceOf, clampBuy, settleTrade, compute_equity, aget, agetD, aset,
        adel, qabs, fillColPrice])
    (by norm_num) (by norm_num) (by norm_num) (by norm_num) (by norm_num)
    (by norm_num)
    (by
      intro p hp tb htb
      simp only [List.mem_singleton] at hp
      subst hp
      simp only [List.mem_singleton] at htb
      subst htb
      norm_num)
    ⟨100, [], [("A", 100)], 100⟩ (List.mem_singleton.mpr rfl)

/-- C3 witness: the equity identity and the mark-price characterization on
concrete one-bar runs of both models. -/
theorem C3_witness :
    ((∀ snap ∈ ([⟨100, [], [("S", 100)], 100⟩] : List PortfolioState),
        snap.equity = compute_equity snap.cash snap.positions snap.last_prices) ∧
      ∀ pr ∈ ([⟨100, [], [("S", 100)], 100⟩] : List PortfolioState).zip
          [((0:ℕ), (⟨100, 100, 100, 100, 1⟩ : Bar))],
        pr.1.last_prices = aset ([] : List (String × ℚ)) "S" pr.2.2.Close) ∧
    (∀ snap ∈ ([⟨100, [], [("A", 100)], 100⟩] : List PortfolioState),
        snap.equity = compute_equity snap.cash snap.positions snap.last_prices) :=
  ⟨C3_equity_identity.1 {} ⟨[(0, ⟨100, 100, 100, 100, 1⟩)], "S"⟩
      ⟨[(0, FVal.num 0)]⟩ ⟨100, [], [], 0⟩ [] [⟨100, [], [("S", 100)], 100⟩]
      (by
        rw [NextBarExecutionModel.run]
        norm_num [runBars, stepBar, compute_equity, aget, agetD, aset, qabs]),
   C3_equity_identity.2 {} ⟨[("A", ⟨[(0, ⟨100, 100, 100, 100, 1⟩)], "A"⟩)]⟩
      [("A", ⟨[(0, FVal.num 0)]⟩)] ⟨100, [], [], 0⟩
      [] [⟨100, [], [("A", 100)], 100⟩]
      (by
        rw [MultiNextBarExecutionModel.run]
        norm_num [checkSigs, runIdx, multiStep, markPass, tradePass, tradeSym,
          execPriceOf, clampBuy, settleTrade, compute_equity, aget, agetD, aset,
          adel, qabs, fillColPrice])⟩

/-- C4 witness: the amended domain-range guarantees on the same concrete
one-bar runs. -/
theorem C4_witness :
    (∀ tb ∈ [((0:ℕ), (⟨100, 100, 100, 100, 1⟩ : Bar))],
      (∀ q, aget ([(0, FVal.num 0)] : List (ℕ × FVal)) tb.1 = some (.num q) →
        0 ≤ q ∧ q ≤ 1) ∧ tb.2.Close ≠ 0) ∧
    (∀ ts ∈ MultiMarketData.index ⟨[("A", ⟨[(0, ⟨100, 100, 100, 100, 1⟩)], "A"⟩)]⟩,
      ∀ sym ∈ MultiMarketData.symbols ⟨[("A", ⟨[(0, ⟨100, 100, 100, 100, 1⟩)], "A"⟩)]⟩,
      ∀ md, aget (MultiMarketData.data ⟨[("A", ⟨[(0, ⟨100, 100, 100, 100, 1⟩)], "A"⟩)]⟩)
          sym = some md →
        ∀ row, aget md.bars ts = some row →
          0 < row.Close ∧
          ∀ sg, aget ([("A", ⟨[(0, FVal.num 0)]⟩)] : List (String × Signals)) sym
              = some sg →
            ∀ q, aget sg.target_position ts = some (.num q) → 0 ≤ q ∧ q ≤ 1) :=
  ⟨C4_domain_range_errors.1 {} ⟨[(0, ⟨100, 100, 100, 100, 1⟩)], "S"⟩
      ⟨[(0, FVal.num 0)]⟩ ⟨100, [], [], 0⟩ [] [⟨100, [], [("S", 100)], 100⟩]
      (by
        rw [NextBarExecutionModel.run]
        norm_num [runBars, stepBar, compute_equity, aget, agetD, aset, qabs]),
   C4_domain_range_errors.2 {} ⟨[("A", ⟨[(0, ⟨100, 100, 100, 100, 1⟩)], "A"⟩)]⟩
      [("A", ⟨[(0, FVal.num 0)]⟩)] ⟨100, [], [], 0⟩
      [] [⟨100, [], [("A", 100)], 100⟩]
      (by
        rw [MultiNextBarExecutionModel.run]
        norm_num [checkSigs, runIdx, multiStep, markPass, tradePass, tradeSym,
          execPriceOf, clampBuy, settleTrade, compute_equity, aget, agetD, aset,
          adel, qabs, fillColPrice])⟩

/-- C6 witness: a misaligned single-asset run, a multi-asset run with a
missing signal series, and a multi-asset run with a misaligned signal series
all return errors. -/
theorem C6_witness :
    (NextBarExecutionModel.run {} ⟨[(0, ⟨100, 100, 100, 100, 1⟩)], "S"⟩ ⟨[]⟩
        ⟨100, [], [], 0⟩
      = .error "Signals.target_position.index must match MarketData.bars.index") ∧
    (∃ e, MultiNextBarExecutionModel.run {}
        ⟨[("A", ⟨[(0, ⟨100, 100, 100, 100, 1⟩)], "A"⟩)]⟩ [] ⟨100, [], [], 0⟩
      = .error e) ∧
    (∃ e, MultiNextBarExecutionModel.run {}
        ⟨[("A", ⟨[(0, ⟨100, 100, 100, 100, 1⟩)], "A"⟩)]⟩ [("A", ⟨[]⟩)]
        ⟨100, [], [], 0⟩
      = .error e) :=
  ⟨C6_alignment_fail_fast.1 {} ⟨[(0, ⟨100, 100, 100, 100, 1⟩)], "S"⟩ ⟨[]⟩
      ⟨100, [], [], 0⟩ (by simp),
   C6_alignment_fail_fast.2.1 {} ⟨[("A", ⟨[(0, ⟨100, 100, 100, 100, 1⟩)], "A"⟩)]⟩
      [] ⟨100, [], [], 0⟩ "A" (by simp [MultiMarketData.symbols]) rfl,
   C6_alignment_fail_fast.2.2 {} ⟨[("A", ⟨[(0, ⟨100, 100, 100, 100, 1⟩)], "A"⟩)]⟩
      [("A", ⟨[]⟩)] ⟨100, [], [], 0⟩ "A" ⟨[]⟩
      (by simp [MultiMarketData.symbols]) (by simp [aget])
      (by simp [MultiMarketData.index])⟩

/-! ## The no-trade property (claim C8) -/

/-- The delta that bar `tb` of a single-asset run would compute if no trade
has happened before it: steps 1–5 of the per-bar transition (mark the Close,
resolve the fraction with NaN → 0, size against equity at the fresh mark)
against the initial cash/positions. -/
def noTradeDelta (md : MarketData) (sig : Signals) (st0 : PortfolioState)
    (tb : ℕ × Bar) : ℚ :=
  (match aget sig.target_position tb.1 with
   | some v => fvalOf v
   | none => 0) *
    compute_equity st0.cash st0.positions
      (aset st0.last_prices md.symbol tb.2.Close) / tb.2.Close
    - agetD st0.positions md.symbol 0

/-- A bar whose no-trade delta is within eps leaves cash, positions, and
fills untouched and only marks the price and emits the snapshot. -/
theorem stepBar_noTrade (P : ExecutionParams) (symbol : String)
    (tp : List (ℕ × FVal)) (st : WState) (tb : ℕ × Bar)
    (hsome : (aget tp tb.1).isSome)
    (hfrac : ∀ q, aget tp tb.1 = some (.num q) → 0 ≤ q ∧ q ≤ 1)
    (hclose : tb.2.Close ≠ 0)
    (hdelta : qabs ((match aget tp tb.1 with
        | some v => fvalOf v
        | none => 0) *
          compute_equity st.cash st.positions
            (aset st.last_prices symbol tb.2.Close) / tb.2.Close
          - agetD st.positions symbol 0) ≤ P.eps) :
    stepBar P symbol tp st tb
      = .ok ⟨st.cash, st.positions, aset st.last_prices symbol tb.2.Close,
             st.fills,
             st.states ++ [⟨st.cash, st.positions,
               aset st.last_prices symbol tb.2.Close,
               compute_equity st.cash st.positions
                 (aset st.last_prices symbol tb.2.Close)⟩]⟩ := by
  rw [stepBar]
  cases hget : aget tp tb.1 with
  | none => rw [hget] at hsome; cases hsome
  | some v =>
    rw [hget] at hdelta
    simp only [hget]
    cases v with
    | nan =>
      rw [if_neg (by push_neg; norm_num)]
      rw [if_neg hclose]
      rw [if_neg (by push_neg; simpa [fvalOf] using hdelta)]
    | num q =>
      rw [if_neg (by push_neg; exact hfrac q hget)]
      rw [if_neg hclose]
      rw [if_neg (by push_neg; simpa [fvalOf] using hdelta)]

/-- The single-asset bar loop under an everywhere-within-eps no-trade
hypothesis: no fill, cash and positions frozen at their initial values. -/
theorem runBars_noTrade (P : ExecutionParams) (symbol : String)
    (tp : List (ℕ × FVal)) (cash0 : ℚ) (pos0 lp0 : List (String × ℚ)) :
    ∀ (bars : List (ℕ × Bar)) (lp : List (String × ℚ)) (fills : List Fill)
      (states : List PortfolioState),
      (lp = lp0 ∨ ∃ c, lp = aset lp0 symbol c) →
      (∀ tb ∈ bars,
        (aget tp tb.1).isSome ∧
        (∀ q, aget tp tb.1 = some (.num q) → 0 ≤ q ∧ q ≤ 1) ∧
        tb.2.Close ≠ 0 ∧
        qabs ((match aget tp tb.1 with
            | some v => fvalOf v
            | none => 0) *
          compute_equity cash0 pos0 (aset lp0 symbol tb.2.Close) / tb.2.Close
          - agetD pos0 symbol 0) ≤ P.eps) →
      ∃ lp' states',
        runBars P symbol tp ⟨cash0, pos0, lp, fills, states⟩ bars
          = .ok ⟨cash0, pos0, lp', fills, states ++ states'⟩ ∧
        ∀ snap ∈ states', snap.cash = cash0 ∧ snap.positions = pos0 := by
  intro bars
  induction bars with
  | nil =>
    intro lp fills states _ _
    exact ⟨lp, [], by rw [runBars]; simp, by simp⟩
  | cons tb rest ih =>
    intro lp fills states hlp hconds
    obtain ⟨h1, h2, h3, h4⟩ := hconds tb (List.mem_cons_self tb rest)
    have haset : aset lp symbol tb.2.Close = aset lp0 symbol tb.2.Close := by
      rcases hlp with rfl | ⟨c, rfl⟩
      · rfl
      · exact aset_aset lp0 symbol c tb.2.Close
    have hstep := stepBar_noTrade P symbol tp ⟨cash0, pos0, lp, fills, states⟩
      tb h1 h2 h3 (by simpa [haset] using h4)
    obtain ⟨lp', states', hrun, hsnaps⟩ := ih (aset lp0 symbol tb.2.Close)
      fills (states ++ [⟨cash0, pos0, aset lp0 symbol tb.2.Close,
        compute_equity cash0 pos0 (aset lp0 symbol tb.2.Close)⟩])
      (Or.inr ⟨tb.2.Close, rfl⟩)
      (fun tb' htb' => hconds tb' (List.mem_cons_of_mem tb htb'))
    refine ⟨lp', ⟨cash0, pos0, aset lp0 symbol tb.2.Close,
        compute_equity cash0 pos0 (aset lp0 symbol tb.2.Close)⟩ :: states', ?_, ?_⟩
    · rw [runBars, hstep]
      simp only [haset]
      rw [hrun]
      simp
    · intro snap hsnap
      rcases List.mem_cons.mp hsnap with rfl | h
      · exact ⟨rfl, rfl⟩
      · exact hsnaps snap h

/-- C8, single-asset form, derived: if every bar's no-trade delta is within
eps (and the run's preconditions hold), the run succeeds with an empty fill
list and every snapshot carries the initial cash and positions. -/
theorem single_run_noTrade (P : ExecutionParams) (md : MarketData)
    (sig : Signals) (st0 : PortfolioState)
    (halign : sig.target_position.map Prod.fst = md.bars.map Prod.fst)
    (hconds : ∀ tb ∈ md.bars,
      (∀ q, aget sig.target_position tb.1 = some (.num q) → 0 ≤ q ∧ q ≤ 1) ∧
      tb.2.Close ≠ 0 ∧ qabs (noTradeDelta md sig st0 tb) ≤ P.eps) :
    ∃ s, NextBarExecutionModel.run P md sig st0 = .ok ([], s) ∧
      ∀ snap ∈ s, snap.cash = st0.cash ∧ snap.positions = st0.positions := by
  obtain ⟨lp', states', hrun, hsnaps⟩ := runBars_noTrade P md.symbol
    sig.target_position st0.cash st0.positions st0.last_prices md.bars
    st0.last_prices [] [] (Or.inl rfl)
    (fun tb htb => by
      obtain ⟨h2, h3, h4⟩ := hconds tb htb
      refine ⟨?_, h2, h3, h4⟩
      rw [Option.isSome_iff_ne_none]
      intro hnone
      have := (aget_eq_none_iff sig.target_position tb.1).mp hnone
      have hmem : tb.1 ∈ md.bars.map Prod.fst :=
        List.mem_map.mpr ⟨tb, htb, rfl⟩
      rw [← halign] at hmem
      exact this hmem)
  refine ⟨states', ?_, hsnaps⟩
  rw [NextBarExecutionModel.run]
  rw [if_neg (by rw [halign]; exact fun hc => hc rfl)]
  rw [hrun]
  simp

/-- The Close that the mark pass at timestamp `ts` writes for key `k`, if
any: the assignment of the last occurrence of `k` in the symbols list. -/
def lastClose (data : List (String × MarketData)) (ts : ℕ) :
    List String → String → Option ℚ
  | [], _ => none
  | sym :: rest, k =>
    match lastClose data ts rest k with
    | some c => some c
    | none =>
      if sym = k then
        match aget data sym with
        | none => none
        | some md =>
          match aget md.bars ts with
          | none => none
          | some row => some row.Close
      else none

/-- What a successful mark pass does to each key: it writes `lastClose` for
keys it assigns, and leaves the rest of the map alone. -/
theorem markPass_aget (data : List (String × MarketData)) (ts : ℕ) :
    ∀ (syms : List String) (L L' : List (String × ℚ)),
      markPass data ts syms L = .ok L' → ∀ k,
      aget L' k = match lastClose data ts syms k with
                  | some c => some c
                  | none => aget L k := by
  intro syms
  induction syms with
  | nil =>
    intro L L' h k
    rw [markPass] at h
    cases h
    rfl
  | cons sym rest ih =>
    intro L L' h k
    rw [markPass] at h
    split at h
    · exact Except.noConfusion h
    · rename_i md hmd
      split at h
      · exact Except.noConfusion h
      · rename_i row hrow
        have := ih _ L' h k
        rw [this]
        rw [lastClose]
        cases hlc : lastClose data ts rest k with
        | some c => simp
        | none =>
          simp only []
          by_cases hk : sym = k
          · subst hk
            simp only [if_pos rfl, hmd, hrow]
            rw [aget_aset]
            simp
          · simp only [if_neg hk]
            rw [aget_aset]
            simp [hk]

/-- Success of the mark pass does not depend on the incoming price map. -/
theorem markPass_ok_indep (data : List (String × MarketData)) (ts : ℕ) :
    ∀ (syms : List String) (L₁ L₁' L₂ : List (String × ℚ)),
      markPass data ts syms L₁ = .ok L₁' →
      ∃ L₂', markPass data ts syms L₂ = .ok L₂' := by
  intro syms
  induction syms with
  | nil =>
    intro L₁ L₁' L₂ _
    exact ⟨L₂, rfl⟩
  | cons sym rest ih =>
    intro L₁ L₁' L₂ h
    rw [markPass] at h
    split at h
    · exact Except.noConfusion h
    · rename_i md hmd
      split at h
      · exact Except.noConfusion h
      · rename_i row hrow
        obtain ⟨L₂', h₂⟩ := ih _ L₁' (aset L₂ sym row.Close) h
        refine ⟨L₂', ?_⟩
        rw [markPass]
        simp only [hmd, hrow]
        exact h₂

/-- Under a successful mark pass, every listed symbol has an assignment. -/
theorem lastClose_isSome_of_markPass_ok (data : List (String × MarketData))
    (ts : ℕ) :
    ∀ (syms : List String) (L L' : List (String × ℚ)),
      markPass data ts syms L = .ok L' →
      ∀ k ∈ syms, (lastClose data ts syms k).isSome := by
  intro syms
  induction syms with
  | nil => intro L L' _ k hk; simp at hk
  | cons sym rest ih =>
    intro L L' h k hk
    rw [markPass] at h
    split at h
    · exact Except.noConfusion h
    · rename_i md hmd
      split at h
      · exact Except.noConfusion h
      · rename_i row hrow
        rw [lastClose]
        cases hlc : lastClose data ts rest k with
        | some c => simp
        | none =>
          simp only []
          rcases List.mem_cons.mp hk with rfl | hk'
          · simp [hmd, hrow]
          · have := ih _ L' h k hk'
            rw [hlc] at this
            cases this

/-- Keys outside the symbols list are never assigned by the mark pass. -/
theorem lastClose_none_of_not_mem (data : List (String × MarketData)) (ts : ℕ) :
    ∀ (syms : List String) (k : String), k ∉ syms →
      lastClose data ts syms k = none := by
  intro syms
  induction syms with
  | nil => intro k _; rfl
  | cons sym rest ih =>
    intro k hk
    rw [lastClose]
    have hk1 : sym ≠ k := fun hc => hk (hc ▸ List.mem_cons_self sym rest)
    have hk2 : k ∉ rest := fun hc => hk (List.mem_cons_of_mem sym hc)
    rw [ih k hk2]
    simp [hk1]

/-- A symbol whose within-eps delta makes `tradeSym` skip the trade and
return the state unchanged. -/
theorem tradeSym_noTrade (P : ExecutionParams) (data : List (String × MarketData))
    (sigs : List (String × Signals)) (ts : ℕ) (lp : List (String × ℚ))
    (st : TradeState) (sym : String) (md : MarketData) (row : Bar)
    (sg : Signals) (v : FVal)
    (hmd : aget data sym = some md) (hrow : aget md.bars ts = some row)
    (hsg : aget sigs sym = some sg) (hv : aget sg.target_position ts = some v)
    (hrange : ∀ q, v = FVal.num q → 0 ≤ q ∧ q ≤ 1)
    (hclose : 0 < row.Close)
    (hdelta : qabs (fvalOf v *
        compute_equity st.cash st.positions lp / row.Close
        - agetD st.positions sym 0) ≤ P.eps) :
    tradeSym P data sigs ts lp st sym = .ok st := by
  rw [tradeSym]
  simp only [hmd, hrow, hsg, hv]
  cases v with
  | nan =>
    rw [if_neg (by push_neg; norm_num)]
    rw [if_neg (not_le.mpr hclose)]
    rw [if_pos (by simpa [fvalOf] using hdelta)]
  | num q =>
    rw [if_neg (by push_neg; exact hrange q rfl)]
    rw [if_neg (not_le.mpr hclose)]
    rw [if_pos (by simpa [fvalOf] using hdelta)]

/-- A trade pass in which every symbol skips leaves the state unchanged. -/
theorem tradePass_noTrade (P : ExecutionParams)
    (data : List (String × MarketData)) (sigs : List (String × Signals))
    (ts : ℕ) (lp : List (String × ℚ)) :
    ∀ (syms : List String) (st : TradeState),
      (∀ sym ∈ syms, tradeSym P data sigs ts lp st sym = .ok st) →
      tradePass P data sigs ts lp st syms = .ok st := by
  intro syms
  induction syms with
  | nil => intro st _; rfl
  | cons a rest ih =>
    intro st h
    rw [tradePass]
    rw [h a (List.mem_cons_self a rest)]
    exact ih st (fun sym hsym => h sym (List.mem_cons_of_mem a hsym))

/-- If every symbol's signal series exists and is aligned, the up-front
check loop succeeds. -/
theorem checkSigs_ok (idx : List ℕ) (sigs : List (String × Signals)) :
    ∀ (syms : List String),
      (∀ sym ∈ syms, ∃ sg, aget sigs sym = some sg ∧
        sg.target_position.map Prod.fst = idx) →
      checkSigs idx sigs syms = .ok () := by
  intro syms
  induction syms with
  | nil => intro _; rfl
  | cons a rest ih =>
    intro h
    obtain ⟨sg, hsg, halign⟩ := h a (List.mem_cons_self a rest)
    rw [checkSigs]
    simp only [hsg, halign, if_true]
    exact ih (fun sym hsym => h sym (List.mem_cons_of_mem a hsym))

/-- The multi-asset time loop under an everywhere-within-eps no-trade
hypothesis: the shared cash pool and the positions stay at their initial
values, no fill is appended, and only marks and snapshots accumulate. -/
theorem runIdx_noTrade (P : ExecutionParams) (data : List (String × MarketData))
    (sigs : List (String × Signals)) (symbols : List String)
    (cash0 : ℚ) (pos0 lp0 : List (String × ℚ)) :
    ∀ (idx : List ℕ) (L : List (String × ℚ)) (fills : List Fill)
      (states : List PortfolioState),
      (∀ k, k ∉ symbols → aget L k = aget lp0 k) →
      (∀ ts ∈ idx, ∃ lpM, markPass data ts symbols lp0 = .ok lpM ∧
        ∀ sym ∈ symbols, ∃ md row sg v,
          aget data sym = some md ∧ aget md.bars ts = some row ∧
          aget sigs sym = some sg ∧ aget sg.target_position ts = some v ∧
          (∀ q, v = FVal.num q → 0 ≤ q ∧ q ≤ 1) ∧ 0 < row.Close ∧
          qabs (fvalOf v *
            compute_equity cash0 pos0 lpM / row.Close
            - agetD pos0 sym 0) ≤ P.eps) →
      ∃ L' states',
        runIdx P data sigs symbols ⟨cash0, pos0, L, fills, states⟩ idx
          = .ok ⟨cash0, pos0, L', fills, states ++ states'⟩ ∧
        ∀ snap ∈ states', snap.cash = cash0 ∧ snap.positions = pos0 := by
  intro idx
  induction idx with
  | nil =>
    intro L fills states _ _
    exact ⟨L, [], by rw [runIdx]; simp, by simp⟩
  | cons ts rest ih =>
    intro L fills states hinv H
    obtain ⟨lpM, hmarkM, hconds⟩ := H ts (List.mem_cons_self ts rest)
    obtain ⟨L₁, hmarkL⟩ := markPass_ok_indep data ts symbols lp0 lpM L hmarkM
    have hext : ∀ k, aget L₁ k = aget lpM k := by
      intro k
      rw [markPass_aget data ts symbols L L₁ hmarkL k,
          markPass_aget data ts symbols lp0 lpM hmarkM k]
      cases hlc : lastClose data ts symbols k with
      | some c => simp
      | none =>
        simp only []
        have hknotmem : k ∉ symbols := by
          intro hk
          have := lastClose_isSome_of_markPass_ok data ts symbols L L₁ hmarkL k hk
          rw [hlc] at this
          cases this
        exact hinv k hknotmem
    have heq : compute_equity cash0 pos0 L₁ = compute_equity cash0 pos0 lpM :=
      compute_equity_ext cash0 pos0 hext
    have htrade : tradePass P data sigs ts L₁ ⟨cash0, pos0, fills⟩ symbols
        = .ok ⟨cash0, pos0, fills⟩ := by
      refine tradePass_noTrade P data sigs ts L₁ symbols _ (fun sym hsym => ?_)
      obtain ⟨md, row, sg, v, hmd, hrow, hsg, hv, hrange, hclose, hdelta⟩ :=
        hconds sym hsym
      refine tradeSym_noTrade P data sigs ts L₁ _ sym md row sg v
        hmd hrow hsg hv hrange hclose ?_
      simpa [heq] using hdelta
    have hinv' : ∀ k, k ∉ symbols → aget L₁ k = aget lp0 k := by
      intro k hk
      rw [markPass_aget data ts symbols L L₁ hmarkL k,
          lastClose_none_of_not_mem data ts symbols k hk]
      exact hinv k hk
    obtain ⟨L', states', hrun, hsnaps⟩ := ih L₁ fills
      (states ++ [⟨cash0, pos0, L₁, compute_equity cash0 pos0 L₁⟩]) hinv'
      (fun ts' hts' => H ts' (List.mem_cons_of_mem ts hts'))
    refine ⟨L', ⟨cash0, pos0, L₁, compute_equity cash0 pos0 L₁⟩ :: states', ?_, ?_⟩
    · rw [runIdx]
      rw [multiStep]
      simp only [hmarkL, htrade]
      rw [hrun]
      simp
    · intro snap hsnap
      rcases List.mem_cons.mp hsnap with rfl | h
      · exact ⟨rfl, rfl⟩
      · exact hsnaps snap h

/-- C8, multi-asset form, derived: if on every bar every instrument's
no-trade delta (computed against the initial cash/positions and that bar's
fresh marks) is within eps, the run succeeds with no fills and frozen
cash/positions. -/
theorem multi_run_noTrade (P : ExecutionParams) (mmd : MultiMarketData)
    (sigs : List (String × Signals)) (st0 : PortfolioState)
    (hne : mmd.data ≠ [])
    (hsig : ∀ sym ∈ mmd.symbols, ∃ sg, aget sigs sym = some sg ∧
      sg.target_position.map Prod.fst = mmd.index)
    (H : ∀ ts ∈ mmd.index, ∃ lpM,
      markPass mmd.data ts mmd.symbols st0.last_prices = .ok lpM ∧
      ∀ sym ∈ mmd.symbols, ∃ md row sg v,
        aget mmd.data sym = some md ∧ aget md.bars ts = some row ∧
        aget sigs sym = some sg ∧ aget sg.target_position ts = some v ∧
        (∀ q, v = FVal.num q → 0 ≤ q ∧ q ≤ 1) ∧ 0 < row.Close ∧
        qabs (fvalOf v *
          compute_equity st0.cash st0.positions lpM / row.Close
          - agetD st0.positions sym 0) ≤ P.eps) :
    ∃ s, MultiNextBarExecutionModel.run P mmd sigs st0 = .ok ([], s) ∧
      ∀ snap ∈ s, snap.cash = st0.cash ∧ snap.positions = st0.positions := by
  obtain ⟨L', states', hrun, hsnaps⟩ := runIdx_noTrade P mmd.data sigs
    mmd.symbols st0.cash st0.positions st0.last_prices mmd.index
    st0.last_prices [] [] (fun k _ => rfl) H
  rcases hd : mmd.data with _ | ⟨⟨a, md0⟩, tl⟩
  · exact absurd hd hne
  · have hidx : mmd.index = md0.bars.map Prod.fst := by
      rw [MultiMarketData.index, hd]
    have hsyms : mmd.symbols = mmd.data.map Prod.fst := rfl
    refine ⟨states', ?_, hsnaps⟩
    rw [MultiNextBarExecutionModel.run]
    rw [hd]
    simp only []
    rw [show checkSigs (md0.bars.map Prod.fst) sigs (((a, md0) :: tl).map Prod.fst)
        = .ok () from ?_]
    · rw [show (((a, md0) :: tl).map Prod.fst) = mmd.symbols from by rw [hsyms, hd]]
      rw [show (md0.bars.map Prod.fst) = mmd.index from hidx.symm]
      rw [show ((a, md0) :: tl) = mmd.data from hd.symm]
      rw [hrun]
      simp
    · refine checkSigs_ok (md0.bars.map Prod.fst) sigs _ (fun sym hsym => ?_)
      obtain ⟨sg, hsg, halign⟩ := hsig sym (by rw [hsyms, hd]; exact hsym)
      exact ⟨sg, hsg, by rw [← hidx]; exact halign⟩

/-- C8: the no-trade property.  In the single-asset model, if on every bar
the desired quantity differs from the held quantity by at most eps, the run
emits no Fill and every snapshot keeps the initial cash and positions.  In
the multi-asset model likewise when every instrument's per-bar no-trade delta
is within eps. -/
theorem C8_no_trade :
    (∀ (P : ExecutionParams) (md : MarketData) (sig : Signals)
       (st0 : PortfolioState),
      sig.target_position.map Prod.fst = md.bars.map Prod.fst →
      (∀ tb ∈ md.bars,
        (∀ q, aget sig.target_position tb.1 = some (.num q) → 0 ≤ q ∧ q ≤ 1) ∧
        tb.2.Close ≠ 0 ∧ qabs (noTradeDelta md sig st0 tb) ≤ P.eps) →
      ∃ s, NextBarExecutionModel.run P md sig st0 = .ok ([], s) ∧
        ∀ snap ∈ s, snap.cash = st0.cash ∧ snap.positions = st0.positions) ∧
    (∀ (P : ExecutionParams) (mmd : MultiMarketData)
       (sigs : List (String × Signals)) (st0 : PortfolioState),
      mmd.data ≠ [] →
      (∀ sym ∈ mmd.symbols, ∃ sg, aget sigs sym = some sg ∧
        sg.target_position.map Prod.fst = mmd.index) →
      (∀ ts ∈ mmd.index, ∃ lpM,
        markPass mmd.data ts mmd.symbols st0.last_prices = .ok lpM ∧
        ∀ sym ∈ mmd.symbols, ∃ md row sg v,
          aget mmd.data sym = some md ∧ aget md.bars ts = some row ∧
          aget sigs sym = some sg ∧ aget sg.target_position ts = some v ∧
          (∀ q, v = FVal.num q → 0 ≤ q ∧ q ≤ 1) ∧ 0 < row.Close ∧
          qabs (fvalOf v *
            compute_equity st0.cash st0.positions lpM / row.Close
            - agetD st0.positions sym 0) ≤ P.eps) →
      ∃ s, MultiNextBarExecutionModel.run P mmd sigs st0 = .ok ([], s) ∧
        ∀ snap ∈ s, snap.cash = st0.cash ∧ snap.positions = st0.positions) :=
  ⟨fun P md sig st0 => single_run_noTrade P md sig st0,
   fun P mmd sigs st0 => multi_run_noTrade P mmd sigs st0⟩

/-- C8 witness: the no-trade conclusion on concrete one-bar runs of both
models with target fraction 0 and no position. -/
theorem C8_witness :
    (∃ s, NextBarExecutionModel.run {} ⟨[(0, ⟨100, 100, 100, 100, 1⟩)], "S"⟩
        ⟨[(0, FVal.num 0)]⟩ ⟨100, [], [], 0⟩ = .ok ([], s) ∧
      ∀ snap ∈ s, snap.cash = (100:ℚ) ∧ snap.positions = []) ∧
    (∃ s, MultiNextBarExecutionModel.run {}
        ⟨[("A", ⟨[(0, ⟨100, 100, 100, 100, 1⟩)], "A"⟩)]⟩
        [("A", ⟨[(0, FVal.num 0)]⟩)] ⟨100, [], [], 0⟩ = .ok ([], s) ∧
      ∀ snap ∈ s, snap.cash = (100:ℚ) ∧ snap.positions = []) :=
  ⟨C8_no_trade.1 {} ⟨[(0, ⟨100, 100, 100, 100, 1⟩)], "S"⟩
      ⟨[(0, FVal.num 0)]⟩ ⟨100, [], [], 0⟩ (by simp)
      (by
        intro tb htb
        simp only [List.mem_singleton] at htb
        subst htb
        refine ⟨?_, by norm_num, ?_⟩
        · intro q hq
          simp [aget] at hq
          simp [← hq]
        · norm_num [noTradeDelta, compute_equity, aget, agetD, aset, qabs,
            fvalOf]),
   C8_no_trade.2 {} ⟨[("A", ⟨[(0, ⟨100, 100, 100, 100, 1⟩)], "A"⟩)]⟩
      [("A", ⟨[(0, FVal.num 0)]⟩)] ⟨100, [], [], 0⟩ (by simp)
      (by
        intro sym hsym
        simp only [MultiMarketData.symbols, List.map_cons, List.map_nil,
          List.mem_singleton] at hsym
        subst hsym
        exact ⟨⟨[(0, FVal.num 0)]⟩, by simp [aget],
          by simp [MultiMarketData.index]⟩)
      (by
        intro ts hts
        simp only [MultiMarketData.index, List.map_cons, List.map_nil,
          List.mem_singleton] at hts
        subst hts
        refine ⟨[("A", 100)], ?_, ?_⟩
        · norm_num [markPass, MultiMarketData.symbols, aget, aset]
        · intro sym hsym
          simp only [MultiMarketData.symbols, List.map_cons, List.map_nil,
            List.mem_singleton] at hsym
          subst hsym
          refine ⟨⟨[(0, ⟨100, 100, 100, 100, 1⟩)], "A"⟩, ⟨100, 100, 100, 100, 1⟩,
            ⟨[(0, FVal.num 0)]⟩, FVal.num 0, by simp [aget], by simp [aget],
            by simp [aget], by simp [aget], ?_, by norm_num, ?_⟩
          · intro q hq
            cases hq
            norm_num
          · norm_num [compute_equity, aget, agetD, fvalOf, qabs])⟩

/-! ## Frozen snapshots as a prefix property (claim C9) -/

theorem runBars_append (P : ExecutionParams) (symbol : String)
    (tp : List (ℕ × FVal)) :
    ∀ (bs₁ bs₂ : List (ℕ × Bar)) (st w : WState),
      runBars P symbol tp st (bs₁ ++ bs₂) = .ok w →
      ∃ w₁, runBars P symbol tp st bs₁ = .ok w₁ ∧
        runBars P symbol tp w₁ bs₂ = .ok w := by
  intro bs₁
  induction bs₁ with
  | nil =>
    intro bs₂ st w h
    exact ⟨st, rfl, h⟩
  | cons tb rest ih =>
    intro bs₂ st w h
    rw [List.cons_append, runBars] at h
    split at h
    · exact Except.noConfusion h
    · rename_i st₁ hstep
      obtain ⟨w₁, h₁, h₂⟩ := ih bs₂ st₁ w h
      refine ⟨w₁, ?_, h₂⟩
      rw [runBars, hstep]
      exact h₁

/-- `stepBar` reads the signal series only through the lookup at this bar's
timestamp. -/
theorem stepBar_tp_ext (P : ExecutionParams) (symbol : String)
    (tp₁ tp₂ : List (ℕ × FVal)) (st : WState) (tb : ℕ × Bar)
    (h : aget tp₁ tb.1 = aget tp₂ tb.1) :
    stepBar P symbol tp₁ st tb = stepBar P symbol tp₂ st tb := by
  rw [stepBar, stepBar, h]

theorem runBars_tp_ext (P : ExecutionParams) (symbol : String)
    (tp₁ tp₂ : List (ℕ × FVal)) :
    ∀ (bs : List (ℕ × Bar)) (st : WState),
      (∀ tb ∈ bs, aget tp₁ tb.1 = aget tp₂ tb.1) →
      runBars P symbol tp₁ st bs = runBars P symbol tp₂ st bs := by
  intro bs
  induction bs with
  | nil => intro st _; rfl
  | cons tb rest ih =>
    intro st h
    rw [runBars, runBars]
    rw [stepBar_tp_ext P symbol tp₁ tp₂ st tb (h tb (List.mem_cons_self tb rest))]
    cases hs : stepBar P symbol tp₂ st tb with
    | error e => rfl
    | ok st₁ => exact ih st₁ (fun tb' htb' => h tb' (List.mem_cons_of_mem tb htb'))

/-- On a dup-free association list, lookups of keys present in a prefix agree
between the prefix and the whole list. -/
theorem aget_take {β : Type} (l : List (ℕ × β)) (n : ℕ) (k : ℕ)
    (hnd : (l.map Prod.fst).Nodup) (hmem : k ∈ (l.take n).map Prod.fst) :
    aget (l.take n) k = aget l k := by
  cases hv : aget (l.take n) k with
  | none =>
    exact absurd ((aget_eq_none_iff (l.take n) k).mp hv) (fun hc => hc hmem)
  | some v =>
    have hmem' : (k, v) ∈ l := List.take_subset n l (mem_of_aget hv)
    exact (aget_of_mem_nodup hmem' hnd).symm

/-- C9, single-asset form: truncating a successful run to its first `n` bars
(bars and signals alike) reproduces exactly the first `n` snapshots and a
prefix of the fills — processing later bars never changes an already emitted
snapshot, and the initial state is never written to (the run works on
copies). -/
theorem single_run_take (P : ExecutionParams) (md : MarketData)
    (sig : Signals) (st0 : PortfolioState) (f : List Fill)
    (s : List PortfolioState) (n : ℕ)
    (hnd : (md.bars.map Prod.fst).Nodup)
    (h : NextBarExecutionModel.run P md sig st0 = .ok (f, s)) :
    ∃ f', NextBarExecutionModel.run P ⟨md.bars.take n, md.symbol⟩
        ⟨sig.target_position.take n⟩ st0 = .ok (f', s.take n) ∧
      ∃ rest, f = f' ++ rest := by
  rw [NextBarExecutionModel.run] at h
  split at h
  · exact Except.noConfusion h
  · rename_i halign'
    push_neg at halign'
    split at h
    · exact Except.noConfusion h
    · rename_i w hrun
      cases h
      rw [← List.take_append_drop n md.bars] at hrun
      obtain ⟨w₁, hrun₁, hrun₂⟩ := runBars_append P md.symbol
        sig.target_position (md.bars.take n) (md.bars.drop n) _ w hrun
      have hkeys : (sig.target_position.take n).map Prod.fst
          = (md.bars.take n).map Prod.fst := by
        rw [List.map_take, List.map_take, halign']
      have hndsig : (sig.target_position.map Prod.fst).Nodup := by
        rw [halign']; exact hnd
      have hext : ∀ tb ∈ md.bars.take n,
          aget (sig.target_position.take n) tb.1 = aget sig.target_position tb.1 := by
        intro tb htb
        refine aget_take sig.target_position n tb.1 hndsig ?_
        rw [hkeys]
        exact List.mem_map.mpr ⟨tb, htb, rfl⟩
      have hrun₁' : runBars P md.symbol (sig.target_position.take n)
          ⟨st0.cash, st0.positions, st0.last_prices, [], []⟩ (md.bars.take n)
          = .ok w₁ := by
        rw [runBars_tp_ext P md.symbol (sig.target_position.take n)
          sig.target_position (md.bars.take n) _ hext]
        exact hrun₁
      obtain ⟨⟨fl₁, hfl₁⟩, ⟨new₁, hnew₁, hlen₁, _, _⟩⟩ := runBars_ok_char P
        md.symbol sig.target_position (md.bars.take n) _ w₁ hrun₁
      obtain ⟨⟨fl₂, hfl₂⟩, ⟨new₂, hnew₂, hlen₂, _, _⟩⟩ := runBars_ok_char P
        md.symbol sig.target_position (md.bars.drop n) w₁ w hrun₂
      simp only [List.nil_append] at hnew₁ hfl₁
      have hstates : w.states.take n = w₁.states := by
        rw [hnew₂, hnew₁]
        rw [List.take_append_eq_append_take]
        have hlen₁' : new₁.length = min n md.bars.length := by
          rw [hlen₁, List.length_take]
        have h1 : new₁.take n = new₁ := by
          refine List.take_of_length_le ?_
          rw [hlen₁']
          exact min_le_left n md.bars.length
        rw [h1]
        have h2 : new₂.take (n - new₁.length) = [] := by
          by_cases hn : n ≤ md.bars.length
          · have : n - new₁.length = 0 := by
              rw [hlen₁']
              omega
            rw [this]
            exact List.take_zero new₂
          · have : new₂ = [] := by
              have := hlen₂
              rw [List.length_drop] at this
              push_neg at hn
              have : new₂.length = 0 := by omega
              exact List.eq_nil_of_length_eq_zero this
            rw [this]
            exact List.take_nil
        rw [h2, List.append_nil]
      refine ⟨w₁.fills, ?_, ?_⟩
      · rw [NextBarExecutionModel.run]
        rw [if_neg (by
          simp only [ne_eq, not_not]
          exact hkeys)]
        rw [hrun₁']
        rw [hstates]
      · rw [hfl₂, hfl₁]
        exact ⟨fl₂, rfl⟩

/-- The bar that symbol `sym` contributes at time `ts`: composition of the
two dict lookups of the multi-asset loop (both failure modes raise the same
`KeyError`). -/
def barAt (data : List (String × MarketData)) (sym : String) (ts : ℕ) :
    Option Bar :=
  match aget data sym with
  | none => none
  | some md => aget md.bars ts

/-- The signal value for `sym` at `ts`: composition of the signal lookups. -/
def sigAt (sigs : List (String × Signals)) (sym : String) (ts : ℕ) :
    Option FVal :=
  match aget sigs sym with
  | none => none
  | some sg => aget sg.target_position ts

/-- `tradeSym` with the two lookup compositions abstracted out. -/
def tradeSymAt (P : ExecutionParams) (ob : Option Bar) (ov : Option FVal)
    (ts : ℕ) (lp : List (String × ℚ)) (st : TradeState) (sym : String) :
    Except String TradeState :=
  match ob with
  | none => .error "KeyError"
  | some row =>
    let close_price := row.Close
    let cur_qty := agetD st.positions sym 0
    match ov with
    | none => .error "KeyError"
    | some desired_raw =>
      let target_fraction : ℚ :=
        match desired_raw with | .nan => 0 | .num q => q
      if ¬ (0 ≤ target_fraction ∧ target_fraction ≤ 1) then
        .error "target_fraction out of range"
      else
        let equity_for_sizing := compute_equity st.cash st.positions lp
        if close_price ≤ 0 then .error "Close price must be positive"
        else
          let desired_qty := target_fraction * equity_for_sizing / close_price
          let delta0 := desired_qty - cur_qty
          if qabs delta0 ≤ P.eps then .ok st
          else
            let exec_price := execPriceOf P row delta0
            let delta := clampBuy P st.cash exec_price delta0
            if qabs delta ≤ P.eps then .ok st
            else .ok (settleTrade P sym ts st cur_qty delta exec_price)

theorem tradeSym_eq_at (P : ExecutionParams) (data : List (String × MarketData))
    (sigs : List (String × Signals)) (ts : ℕ) (lp : List (String × ℚ))
    (st : TradeState) (sym : String) :
    tradeSym P data sigs ts lp st sym
      = tradeSymAt P (barAt data sym ts) (sigAt sigs sym ts) ts lp st sym := by
  rw [tradeSym, tradeSymAt.eq_def, barAt, sigAt]
  cases hmd : aget data sym with
  | none => rfl
  | some md =>
    simp only []
    cases hrow : aget md.bars ts with
    | none => rfl
    | some row =>
      simp only []
      cases hsg : aget sigs sym with
      | none => rfl
      | some sg => rfl

/-- One unfolding of the mark pass through `barAt`. -/
theorem markPass_cons_eq (data : List (String × MarketData)) (ts : ℕ)
    (sym : String) (rest : List String) (lp : List (String × ℚ)) :
    markPass data ts (sym :: rest) lp
      = match barAt data sym ts with
        | none => .error "KeyError"
        | some row => markPass data ts rest (aset lp sym row.Close) := by
  rw [markPass, barAt]
  cases hmd : aget data sym with
  | none => rfl
  | some md => rfl

theorem markPass_data_ext (data₁ data₂ : List (String × MarketData)) (ts : ℕ) :
    ∀ (syms : List String) (lp : List (String × ℚ)),
      (∀ sym ∈ syms, barAt data₁ sym ts = barAt data₂ sym ts) →
      markPass data₁ ts syms lp = markPass data₂ ts syms lp := by
  intro syms
  induction syms with
  | nil => intro lp _; rfl
  | cons a rest ih =>
    intro lp h
    rw [markPass_cons_eq, markPass_cons_eq, h a (List.mem_cons_self a rest)]
    cases barAt data₂ a ts with
    | none => rfl
    | some row =>
      exact ih (aset lp a row.Close)
        (fun sym hsym => h sym (List.mem_cons_of_mem a hsym))

theorem tradePass_ext (P : ExecutionParams)
    (data₁ data₂ : List (String × MarketData))
    (sigs₁ sigs₂ : List (String × Signals)) (ts : ℕ) (lp : List (String × ℚ)) :
    ∀ (syms : List String) (st : TradeState),
      (∀ sym ∈ syms, barAt data₁ sym ts = barAt data₂ sym ts ∧
        sigAt sigs₁ sym ts = sigAt sigs₂ sym ts) →
      tradePass P data₁ sigs₁ ts lp st syms
        = tradePass P data₂ sigs₂ ts lp st syms := by
  intro syms
  induction syms with
  | nil => intro st _; rfl
  | cons a rest ih =>
    intro st h
    obtain ⟨hbar, hsig⟩ := h a (List.mem_cons_self a rest)
    rw [tradePass, tradePass]
    rw [tradeSym_eq_at, tradeSym_eq_at, hbar, hsig]
    cases tradeSymAt P (barAt data₂ a ts) (sigAt sigs₂ a ts) ts lp st a with
    | error e => rfl
    | ok st₁ => exact ih st₁ (fun sym hsym => h sym (List.mem_cons_of_mem a hsym))

theorem multiStep_ext (P : ExecutionParams)
    (data₁ data₂ : List (String × MarketData))
    (sigs₁ sigs₂ : List (String × Signals)) (symbols : List String)
    (st : WState) (ts : ℕ)
    (h : ∀ sym ∈ symbols, barAt data₁ sym ts = barAt data₂ sym ts ∧
      sigAt sigs₁ sym ts = sigAt sigs₂ sym ts) :
    multiStep P data₁ sigs₁ symbols st ts
      = multiStep P data₂ sigs₂ symbols st ts := by
  rw [multiStep, multiStep]
  rw [markPass_data_ext data₁ data₂ ts symbols st.last_prices
    (fun sym hsym => (h sym hsym).1)]
  cases markPass data₂ ts symbols st.last_prices with
  | error e => rfl
  | ok lp =>
    simp only []
    rw [tradePass_ext P data₁ data₂ sigs₁ sigs₂ ts lp symbols _ h]

theorem runIdx_ext (P : ExecutionParams)
    (data₁ data₂ : List (String × MarketData))
    (sigs₁ sigs₂ : List (String × Signals)) (symbols : List String) :
    ∀ (idx : List ℕ) (st : WState),
      (∀ ts ∈ idx, ∀ sym ∈ symbols, barAt data₁ sym ts = barAt data₂ sym ts ∧
        sigAt sigs₁ sym ts = sigAt sigs₂ sym ts) →
      runIdx P data₁ sigs₁ symbols st idx
        = runIdx P data₂ sigs₂ symbols st idx := by
  intro idx
  induction idx with
  | nil => intro st _; rfl
  | cons ts rest ih =>
    intro st h
    rw [runIdx, runIdx]
    rw [multiStep_ext P data₁ data₂ sigs₁ sigs₂ symbols st ts
      (h ts (List.mem_cons_self ts rest))]
    cases multiStep P data₂ sigs₂ symbols st ts with
    | error e => rfl
    | ok st₁ => exact ih st₁ (fun ts' hts' => h ts' (List.mem_cons_of_mem ts hts'))

theorem runIdx_append (P : ExecutionParams) (data : List (String × MarketData))
    (sigs : List (String × Signals)) (symbols : List String) :
    ∀ (i₁ i₂ : List ℕ) (st w : WState),
      runIdx P data sigs symbols st (i₁ ++ i₂) = .ok w →
      ∃ w₁, runIdx P data sigs symbols st i₁ = .ok w₁ ∧
        runIdx P data sigs symbols w₁ i₂ = .ok w := by
  intro i₁
  induction i₁ with
  | nil =>
    intro i₂ st w h
    exact ⟨st, rfl, h⟩
  | cons ts rest ih =>
    intro i₂ st w h
    rw [List.cons_append, runIdx] at h
    split at h
    · exact Except.noConfusion h
    · rename_i st₁ hstep
      obtain ⟨w₁, h₁, h₂⟩ := ih i₂ st₁ w h
      refine ⟨w₁, ?_, h₂⟩
      rw [runIdx, hstep]
      exact h₁

theorem checkSigs_ok_elim (idx : List ℕ) (sigs : List (String × Signals)) :
    ∀ (syms : List String), checkSigs idx sigs syms = .ok () →
      ∀ sym ∈ syms, ∃ sg, aget sigs sym = some sg ∧
        sg.target_position.map Prod.fst = idx := by
  intro syms
  induction syms with
  | nil => intro _ sym hsym; simp at hsym
  | cons a rest ih =>
    intro h sym hsym
    rw [checkSigs] at h
    split at h
    · exact Except.noConfusion h
    · rename_i sg hsg
      split at h
      · rename_i halign
        rcases List.mem_cons.mp hsym with rfl | hsym'
        · exact ⟨sg, hsg, halign⟩
        · exact ih h sym hsym'
      · exact Except.noConfusion h

theorem aget_map_val {α β γ : Type} [DecidableEq α] (l : List (α × β))
    (g : β → γ) (k : α) :
    aget (l.map (fun p => (p.1, g p.2))) k = (aget l k).map g := by
  induction l with
  | nil => rfl
  | cons p t ih =>
    obtain ⟨pk, pv⟩ := p
    by_cases hk : pk = k
    · subst hk
      simp [aget]
    · simp [aget, hk, ih]

theorem aget_map_truncSig (sigs : List (String × Signals)) (n : ℕ) (k : String) :
    aget (sigs.map (fun p => (p.1, Signals.mk (p.2.target_position.take n)))) k
      = (aget sigs k).map (fun sg => Signals.mk (sg.target_position.take n)) :=
  aget_map_val sigs (fun sg => Signals.mk (sg.target_position.take n)) k

/-- C9, multi-asset form: truncating a successful run to its first `n`
timestamps (the index-defining first symbol's bars and every signal series)
reproduces exactly the first `n` snapshots and a prefix of the fills. -/
theorem multi_run_take (P : ExecutionParams) (s0 : String) (md0 : MarketData)
    (tl : List (String × MarketData)) (sigs : List (String × Signals))
    (st0 : PortfolioState) (f : List Fill) (s : List PortfolioState) (n : ℕ)
    (hnd : (md0.bars.map Prod.fst).Nodup)
    (h : MultiNextBarExecutionModel.run P ⟨(s0, md0) :: tl⟩ sigs st0
      = .ok (f, s)) :
    ∃ f', MultiNextBarExecutionModel.run P
        ⟨(s0, ⟨md0.bars.take n, md0.symbol⟩) :: tl⟩
        (sigs.map (fun p => (p.1, Signals.mk (p.2.target_position.take n)))) st0
        = .ok (f', s.take n) ∧
      ∃ rest, f = f' ++ rest := by
  rw [MultiNextBarExecutionModel.run] at h
  simp only [] at h
  split at h
  · exact Except.noConfusion h
  · rename_i u hchk
    split at h
    · exact Except.noConfusion h
    · rename_i w hrun
      cases h
      cases u
      have hsg := checkSigs_ok_elim (md0.bars.map Prod.fst) sigs
        (((s0, md0) :: tl).map Prod.fst) hchk
      rw [← List.take_append_drop n (md0.bars.map Prod.fst)] at hrun
      obtain ⟨w₁, hrun₁, hrun₂⟩ := runIdx_append P ((s0, md0) :: tl) sigs
        (((s0, md0) :: tl).map Prod.fst) _ _ _ w hrun
      have hext : ∀ ts ∈ (md0.bars.map Prod.fst).take n,
          ∀ sym ∈ ((s0, md0) :: tl).map Prod.fst,
          barAt ((s0, ⟨md0.bars.take n, md0.symbol⟩) :: tl) sym ts
            = barAt ((s0, md0) :: tl) sym ts ∧
          sigAt (sigs.map (fun p => (p.1, Signals.mk (p.2.target_position.take n))))
              sym ts
            = sigAt sigs sym ts := by
        intro ts hts sym hsym
        constructor
        · rw [barAt, barAt]
          by_cases hs0 : s0 = sym
          · simp only [aget, hs0, if_pos rfl]
            exact aget_take md0.bars n ts hnd (by rw [List.map_take]; exact hts)
          · simp [aget, hs0]
        · rw [sigAt, sigAt, aget_map_truncSig]
          cases hsg' : aget sigs sym with
          | none => rfl
          | some sg =>
            simp only [Option.map_some']
            obtain ⟨sg₂, hsg₂, halign₂⟩ := hsg sym hsym
            rw [hsg'] at hsg₂
            cases hsg₂
            refine aget_take sg.target_position n ts ?_ ?_
            · rw [halign₂]; exact hnd
            · rw [List.map_take, halign₂]; exact hts
      have hsyms : ((s0, (⟨md0.bars.take n, md0.symbol⟩ : MarketData)) :: tl).map
          Prod.fst = ((s0, md0) :: tl).map Prod.fst := by
        simp
      have hrun₁' : runIdx P ((s0, ⟨md0.bars.take n, md0.symbol⟩) :: tl)
          (sigs.map (fun p => (p.1, Signals.mk (p.2.target_position.take n))))
          (((s0, md0) :: tl).map Prod.fst)
          ⟨st0.cash, st0.positions, st0.last_prices, [], []⟩
          ((md0.bars.map Prod.fst).take n) = .ok w₁ := by
        rw [runIdx_ext P ((s0, ⟨md0.bars.take n, md0.symbol⟩) :: tl)
          ((s0, md0) :: tl)
          (sigs.map (fun p => (p.1, Signals.mk (p.2.target_position.take n))))
          sigs (((s0, md0) :: tl).map Prod.fst) _ _ hext]
        exact hrun₁
      have hchk' : checkSigs ((md0.bars.take n).map Prod.fst)
          (sigs.map (fun p => (p.1, Signals.mk (p.2.target_position.take n))))
          (((s0, md0) :: tl).map Prod.fst) = .ok () := by
        refine checkSigs_ok _ _ _ (fun sym hsym => ?_)
        obtain ⟨sg, hsg₂, halign₂⟩ := hsg sym hsym
        refine ⟨Signals.mk (sg.target_position.take n), ?_, ?_⟩
        · rw [aget_map_truncSig, hsg₂]
          rfl
        · simp only []
          rw [List.map_take, List.map_take, halign₂]
      obtain ⟨⟨fl₁, hfl₁⟩, ⟨new₁, hnew₁, hlen₁, _⟩⟩ := runIdx_ok_char P
        ((s0, md0) :: tl) sigs (((s0, md0) :: tl).map Prod.fst)
        ((md0.bars.map Prod.fst).take n) _ w₁ hrun₁
      obtain ⟨⟨fl₂, hfl₂⟩, ⟨new₂, hnew₂, hlen₂, _⟩⟩ := runIdx_ok_char P
        ((s0, md0) :: tl) sigs (((s0, md0) :: tl).map Prod.fst)
        ((md0.bars.map Prod.fst).drop n) w₁ w hrun₂
      simp only [List.nil_append] at hnew₁ hfl₁
      have hstates : w.states.take n = w₁.states := by
        rw [hnew₂, hnew₁]
        rw [List.take_append_eq_append_take]
        have hlen₁' : new₁.length = min n (md0.bars.map Prod.fst).length := by
          rw [hlen₁, List.length_take]
        have h1 : new₁.take n = new₁ := by
          refine List.take_of_length_le ?_
          rw [hlen₁']
          exact min_le_left n _
        rw [h1]
        have h2 : new₂.take (n - new₁.length) = [] := by
          by_cases hn : n ≤ (md0.bars.map Prod.fst).length
          · have : n - new₁.length = 0 := by
              rw [hlen₁']
              omega
            rw [this]
            exact List.take_zero new₂
          · have hnil : new₂ = [] := by
              have := hlen₂
              rw [List.length_drop] at this
              push_neg at hn
              have : new₂.length = 0 := by omega
              exact List.eq_nil_of_length_eq_zero this
            rw [hnil]
            exact List.take_nil
        rw [h2, List.append_nil]
      refine ⟨w₁.fills, ?_, ?_⟩
      · rw [MultiNextBarExecutionModel.run]
        simp only []
        rw [show ((⟨md0.bars.take n, md0.symbol⟩ : MarketData)).bars.map Prod.fst
          = (md0.bars.take n).map Prod.fst from rfl]
        rw [hsyms, hchk']
        rw [show (md0.bars.take n).map Prod.fst
          = (md0.bars.map Prod.fst).take n from by rw [List.map_take]]
        rw [hrun₁']
        rw [hstates]
      · rw [hfl₂, hfl₁]
        exact ⟨fl₂, rfl⟩

/-- C9: emitted snapshots are frozen copies.  In the pure embedding the
working state is threaded by value, so the initial state passed to `run` is
never mutated; the observable content of "later mutation never changes an
emitted snapshot" is the prefix property: truncating a successful run (of
either model) to its first `n` bars reproduces exactly the first `n`
snapshots and a prefix of the fill list — whatever happens on later bars has
no effect on earlier outputs. -/
theorem C9_frozen_snapshots :
    (∀ (P : ExecutionParams) (md : MarketData) (sig : Signals)
       (st0 : PortfolioState) (f : List Fill) (s : List PortfolioState) (n : ℕ),
      (md.bars.map Prod.fst).Nodup →
      NextBarExecutionModel.run P md sig st0 = .ok (f, s) →
      ∃ f', NextBarExecutionModel.run P ⟨md.bars.take n, md.symbol⟩
          ⟨sig.target_position.take n⟩ st0 = .ok (f', s.take n) ∧
        ∃ rest, f = f' ++ rest) ∧
    (∀ (P : ExecutionParams) (s0 : String) (md0 : MarketData)
       (tl : List (String × MarketData)) (sigs : List (String × Signals))
       (st0 : PortfolioState) (f : List Fill) (s : List PortfolioState) (n : ℕ),
      (md0.bars.map Prod.fst).Nodup →
      MultiNextBarExecutionModel.run P ⟨(s0, md0) :: tl⟩ sigs st0 = .ok (f, s) →
      ∃ f', MultiNextBarExecutionModel.run P
          ⟨(s0, ⟨md0.bars.take n, md0.symbol⟩) :: tl⟩
          (sigs.map (fun p => (p.1, Signals.mk (p.2.target_position.take n)))) st0
          = .ok (f', s.take n) ∧
        ∃ rest, f = f' ++ rest) :=
  ⟨fun P md sig st0 f s n hnd h => single_run_take P md sig st0 f s n hnd h,
   fun P s0 md0 tl sigs st0 f s n hnd h =>
     multi_run_take P s0 md0 tl sigs st0 f s n hnd h⟩

/-- C9 witness: the prefix property applied at `n = 0` to concrete one-bar
runs of both models. -/
theorem C9_witness :
    (∃ f', NextBarExecutionModel.run {}
        ⟨([((0:ℕ), (⟨100, 100, 100, 100, 1⟩ : Bar))].take 0), "S"⟩
        ⟨([((0:ℕ), FVal.num 0)].take 0)⟩ ⟨100, [], [], 0⟩
        = .ok (f', ([(⟨100, [], [("S", 100)], 100⟩ : PortfolioState)].take 0)) ∧
      ∃ rest, ([] : List Fill) = f' ++ rest) ∧
    (∃ f', MultiNextBarExecutionModel.run {}
        ⟨(("A", (⟨([((0:ℕ), (⟨100, 100, 100, 100, 1⟩ : Bar))].take 0), "A"⟩
            : MarketData)) :: [])⟩
        (([("A", (⟨[((0:ℕ), FVal.num 0)]⟩ : Signals))].map
          (fun p => (p.1, Signals.mk (p.2.target_position.take 0)))))
        ⟨100, [], [], 0⟩
        = .ok (f', ([(⟨100, [], [("A", 100)], 100⟩ : PortfolioState)].take 0)) ∧
      ∃ rest, ([] : List Fill) = f' ++ rest) :=
  ⟨C9_frozen_snapshots.1 {} ⟨[(0, ⟨100, 100, 100, 100, 1⟩)], "S"⟩
      ⟨[(0, FVal.num 0)]⟩ ⟨100, [], [], 0⟩ [] [⟨100, [], [("S", 100)], 100⟩] 0
      (by simp)
      (by
        rw [NextBarExecutionModel.run]
        norm_num [runBars, stepBar, compute_equity, aget, agetD, aset, qabs]),
   C9_frozen_snapshots.2 {} "A" ⟨[(0, ⟨100, 100, 100, 100, 1⟩)], "A"⟩ []
      [("A", ⟨[(0, FVal.num 0)]⟩)] ⟨100, [], [], 0⟩
      [] [⟨100, [], [("A", 100)], 100⟩] 0 (by simp)
      (by
        rw [MultiNextBarExecutionModel.run]
        norm_num [checkSigs, runIdx, multiStep, markPass, tradePass, tradeSym,
          execPriceOf, clampBuy, settleTrade, compute_equity, aget, agetD, aset,
          adel, qabs, fillColPrice])⟩

end ToyTrader
